import Mathlib

/-!
Verification of the llm_dash backend core against its specification.

This file gives a shallow embedding, in Lean 4, of the two core subsystems
of the backend:

* the Instance Manager family (`ModelManager`, `LightweightModelManager`,
  `CPUModelRunner`, the embedding handler, `ModelLogger`, and the port
  allocator embedded in `ModelManager`), and
* the Workflow Executor (`WorkflowExecutor` in `workflow_engine.py`).

Python dictionaries are modelled as insertion-ordered association lists
(`List (String × α)`); Python sets as `Finset`; machine wall-clock readings
(timestamps, durations) are abstracted: timestamps become explicit `String`
parameters where their value is stored, and per-node execution durations are
abstracted to `0` (no claim depends on their numeric value).  Fallible Python
code (statements that can raise) is modelled with `Except`; external effects
(spawning a process, calling an inference backend, psutil termination) are
modelled by explicit oracle parameters describing the outcome of the call.

Definitions come first, theorems afterwards.
-/

namespace LlmDash

/-! ## Association-list model of Python `dict`

Python dicts preserve insertion order; assigning to an existing key keeps its
position, assigning to a fresh key appends it.  `lookupA` is `dict.get`,
`setA` is `d[k] = v`, `eraseA` is `del d[k]`, `keysA` is iteration order. -/

def lookupA {α : Type} (l : List (String × α)) (k : String) : Option α :=
  match l with
  | [] => none
  | (k', v) :: rest => if k' = k then some v else lookupA rest k

def containsA {α : Type} (l : List (String × α)) (k : String) : Bool :=
  (lookupA l k).isSome

def setA {α : Type} (l : List (String × α)) (k : String) (v : α) : List (String × α) :=
  match l with
  | [] => [(k, v)]
  | (k', v') :: rest => if k' = k then (k', v) :: rest else (k', v') :: setA rest k v

def eraseA {α : Type} (l : List (String × α)) (k : String) : List (String × α) :=
  match l with
  | [] => []
  | (k', v') :: rest => if k' = k then rest else (k', v') :: eraseA rest k

def keysA {α : Type} (l : List (String × α)) : List String :=
  l.map Prod.fst

/-- Last `n` elements of a list, in order (Python `l[-n:]` for `n > 0`). -/
def lastN {α : Type} (l : List α) (n : Nat) : List α :=
  l.drop (l.length - n)

/-! ## Log Store (`app/services/model_logger.py`, class `ModelLogger`)

State: `_logs : Dict[str, deque]` where each deque has `maxlen = 500`.
A deque with `maxlen` discards its oldest element when a new element is
appended at capacity. Timestamps (`datetime.now().strftime(...)`) are passed
in as an explicit `ts` argument. -/

namespace ModelLogger

abbrev LoggerState := List (String × List String)

def maxLogsPerModel : Nat := 500

/-- The formatted entry built by `add_log`:
`f"[{timestamp}] [{level}] {message}"`. -/
def formatEntry (ts level message : String) : String :=
  "[" ++ ts ++ "] [" ++ level ++ "] " ++ message

/-- `deque.append` with `maxlen`: evict the oldest entry when full. -/
def pushBounded (buf : List String) (entry : String) : List String :=
  if buf.length < maxLogsPerModel then buf ++ [entry] else buf.tail ++ [entry]

/-- `ModelLogger.add_log(model_id, message, level)`; the buffer is created
lazily on first use, then the formatted entry is appended with FIFO
eviction. -/
def addLog (st : LoggerState) (modelId message level ts : String) : LoggerState :=
  let st1 := if containsA st modelId then st else st ++ [(modelId, [])]
  setA st1 modelId (pushBounded ((lookupA st1 modelId).getD []) (formatEntry ts level message))

/-- `ModelLogger.get_logs(model_id, lines)`: last `lines` entries if
`lines > 0`, else the whole buffer; `[]` if the model has no buffer. -/
def getLogs (st : LoggerState) (modelId : String) (lines : Int) : List String :=
  match lookupA st modelId with
  | none => []
  | some buf => if 0 < lines then lastN buf lines.toNat else buf

/-- `ModelLogger.clear_logs(model_id)`. -/
def clearLogs (st : LoggerState) (modelId : String) : LoggerState :=
  if containsA st modelId then setA st modelId [] else st

/-- `ModelLogger.remove_model(model_id)`: drop the buffer entirely. -/
def removeModel (st : LoggerState) (modelId : String) : LoggerState :=
  if containsA st modelId then eraseA st modelId else st

/-- One append record `(ts, level, message)` fed to `add_log`. -/
abbrev Append := String × String × String

def formatAppend (a : Append) : String :=
  formatEntry a.1 a.2.1 a.2.2

/-- A whole sequence of `add_log` calls for one instance id. -/
def addLogs (st : LoggerState) (modelId : String) (appends : List Append) : LoggerState :=
  appends.foldl (fun s a => addLog s modelId a.2.2 a.2.1 a.1) st

end ModelLogger

/-! ## Port Allocator (`app/services/model_manager.py`, `ModelManager`)

The allocator state is the pair of fields `_used_ports : set` and
`_next_port : int` (initialised to `settings.VLLM_BASE_PORT = 8000`).
`_allocate_port` grants a preferred port if it is truthy and free, otherwise
scans upward from the cursor; `stop_model` releases a port with
`self._used_ports.discard(instance.port)`. -/

namespace PortAlloc

structure PortState where
  usedPorts : Finset Nat
  nextPort : Nat
  deriving DecidableEq

/-- The `while self._next_port in self._used_ports: self._next_port += 1`
scan: first port `≥ next` that is not held. -/
def findFreePort (used : Finset Nat) (next : Nat) : Nat :=
  if next ∈ used then findFreePort used (next + 1) else next
termination_by (used.filter (fun p => next ≤ p)).card
decreasing_by
  rename_i h
  apply Finset.card_lt_card
  constructor
  · intro x hx
    simp only [Finset.mem_filter] at hx ⊢
    exact ⟨hx.1, Nat.le_of_succ_le hx.2⟩
  · intro hsub
    have hnext : next ∈ used.filter (fun p => next ≤ p) := by
      simp only [Finset.mem_filter]
      exact ⟨h, Nat.le_refl next⟩
    have := hsub hnext
    simp only [Finset.mem_filter] at this
    exact Nat.not_succ_le_self next this.2

/-- `ModelManager._allocate_port(preferred_port)`.  The Python guard
`if preferred_port and preferred_port not in self._used_ports` requires the
argument to be both non-`None` and truthy (non-zero). -/
def allocatePort : PortState → Option Nat → Nat × PortState
  | st, some p =>
    if p ≠ 0 ∧ p ∉ st.usedPorts then
      (p, { st with usedPorts := insert p st.usedPorts })
    else
      let q := findFreePort st.usedPorts st.nextPort
      (q, { usedPorts := insert q st.usedPorts, nextPort := q + 1 })
  | st, none =>
    let q := findFreePort st.usedPorts st.nextPort
    (q, { usedPorts := insert q st.usedPorts, nextPort := q + 1 })

/-- The release performed by `stop_model`:
`self._used_ports.discard(instance.port)` (`discard` never raises). -/
def releasePort (st : PortState) (p : Nat) : PortState :=
  { st with usedPorts := st.usedPorts.erase p }

inductive PortOp where
  | alloc (preferred : Option Nat)
  | release (p : Nat)

def applyPortOp (st : PortState) (op : PortOp) : PortState :=
  match op with
  | .alloc preferred => (allocatePort st preferred).2
  | .release p => releasePort st p

/-- Fresh manager: `_used_ports = set()`, `_next_port = VLLM_BASE_PORT`. -/
def initPortState : PortState :=
  { usedPorts := ∅, nextPort := 8000 }

def runPortOps (ops : List PortOp) : PortState :=
  ops.foldl applyPortOp initPortState

end PortAlloc

/-! ## Shared status enum (`app/types/schemas/base.py`, `ModelStatus`) -/

inductive ModelStatus where
  | initializing
  | downloading
  | starting
  | running
  | stopping
  | stopped
  | error
  | failed
  deriving DecidableEq

/-- `"x" in s` for Python strings. -/
def strContains (s pat : String) : Bool :=
  s.toList.tails.any (fun t => pat.toList.isPrefixOf t)

/-! ## Process-based Instance Manager (`app/services/model_manager.py`)

`ModelInstance` carries the per-instance fields; `parameters` and the exact
`datetime` value of `start_time` are opaque to every claim and are abstracted
(`startTimeSet` records only that the field was assigned).  The subprocess
handle is abstracted to its presence (`hasProcess`), and the outcome of
external calls (`subprocess.Popen`, the psutil termination sequence) is an
explicit oracle argument. -/

namespace ProcessManager

structure MInstance where
  modelId : String
  modelName : String
  port : Nat
  hasProcess : Bool
  pid : Option Nat
  status : ModelStatus
  startTimeSet : Bool
  errorMessage : Option String
  logBuffer : List String
  deriving DecidableEq

/-- `ModelInstance.__init__`. -/
def mkModelInstance (modelId modelName : String) (port : Nat) : MInstance :=
  { modelId := modelId, modelName := modelName, port := port,
    hasProcess := false, pid := none, status := ModelStatus.initializing,
    startTimeSet := false, errorMessage := none, logBuffer := [] }

/-- Outcome of `subprocess.Popen(cmd, ...)`. -/
inductive SpawnOutcome where
  | ok (pid : Nat)
  | fail (msg : String)

/-- `ModelManager._start_vllm_process(instance, request)`.

Inside the `try`: sets `status = STARTING` and `start_time`, builds the vLLM
command line (pure, no state effect), spawns the subprocess, records the pid,
and sets `status = RUNNING`; the log-reader task is scheduled afterwards and
has not yet run.  On a spawn exception: `status = FAILED` and the error
message is recorded. -/
def startVllmProcess (inst : MInstance) (outcome : SpawnOutcome) : MInstance :=
  let inst1 := { inst with status := ModelStatus.starting, startTimeSet := true }
  match outcome with
  | .ok pid =>
    { inst1 with hasProcess := true, pid := some pid, status := ModelStatus.running }
  | .fail msg =>
    { inst1 with status := ModelStatus.failed, errorMessage := some msg }

/-- The readiness heuristic of `_read_process_logs`:
`"Application startup complete" in line or "Uvicorn running" in line`. -/
def isReadinessMarker (line : String) : Bool :=
  strContains line ("Application startup complete") || strContains line ("Uvicorn running")

/-- Handling of one non-empty log line in `_read_process_logs`: append the
stripped line to the bounded buffer (keep the last 1000), set `RUNNING` on a
readiness marker, and set `ERROR` if the line mentions an error while the
status is still `STARTING`. -/
def readLogLine (inst : MInstance) (line : String) : MInstance :=
  let buf := inst.logBuffer ++ [line.trim]
  let buf := if buf.length > 1000 then lastN buf 1000 else buf
  let inst1 := { inst with logBuffer := buf }
  let inst2 := if isReadinessMarker line then { inst1 with status := ModelStatus.running } else inst1
  if strContains line.toLower ("error") && decide (inst2.status = ModelStatus.starting) then
    { inst2 with status := ModelStatus.error, errorMessage := some line.trim }
  else
    inst2

structure MState where
  instances : List (String × MInstance)
  usedPorts : Finset Nat
  nextPort : Nat
  deriving DecidableEq

/-- Outcome of the psutil termination sequence inside `stop_model`'s `try`
(`psutil.Process(pid)`, `terminate`, `wait(10)`, possible `kill`/`wait(5)`):
either the sequence completes (with or without escalation) or some step
raises. -/
inductive TermOutcome where
  | ok
  | raise (msg : String)

/-- `ModelManager.stop_model(model_id)`.  Raises (models the Python
`ValueError`) when the id is unknown; otherwise returns the Python `bool`.
A pid of `0` is never produced by `Popen`, so the truthiness test
`not instance.process or not instance.pid` is modelled as presence. -/
def stopModel (term : TermOutcome) (st : MState) (modelId : String) :
    Except String (Bool × MState) :=
  match lookupA st.instances modelId with
  | none => .error ("模型实例 " ++ modelId ++ " 不存在")
  | some inst =>
    if !inst.hasProcess || inst.pid.isNone then
      let inst1 := { inst with status := ModelStatus.stopped }
      .ok (true, { st with instances := setA st.instances modelId inst1 })
    else
      match term with
      | .ok =>
        let inst1 := { inst with status := ModelStatus.stopped, pid := none }
        .ok (true, { st with instances := setA st.instances modelId inst1,
                             usedPorts := st.usedPorts.erase inst1.port })
      | .raise msg =>
        let inst1 := { inst with status := ModelStatus.stopping,
                                 errorMessage := some ("停止失败: " ++ msg) }
        .ok (false, { st with instances := setA st.instances modelId inst1 })

/-- `ModelManager.remove_model(model_id)`: when present, stop (ignoring the
stop result) and then delete from the registry, returning `True`; otherwise
return `False`. -/
def removeModel (term : TermOutcome) (st : MState) (modelId : String) :
    Except String (Bool × MState) :=
  if containsA st.instances modelId then
    match stopModel term st modelId with
    | .error e => .error e
    | .ok (_, st1) => .ok (true, { st1 with instances := eraseA st1.instances modelId })
  else
    .ok (false, st)

/-- `ModelManager.get_model(model_id)` (the `ModelInfo` projection keeps all
fields relevant here, so the instance itself stands for its info). -/
def getModel (st : MState) (modelId : String) : Option MInstance :=
  lookupA st.instances modelId

end ProcessManager

/-! ## In-process Instance Manager (`app/services/lightweight_model_manager.py`)
with its runner (`app/services/cpu_model_runner.py`) and embedding handler
(`app/services/embedding_model_handler.py`).

A Python instance attribute can hold a value, hold `None`, or have been
removed with `del` (after which reading it raises `AttributeError`); the
`Attr` type models these three states.  The loaded model/tokenizer objects
themselves are opaque (`Unit`). -/

namespace Lightweight

inductive Attr where
  | present
  | noneVal
  | deleted
  deriving DecidableEq

/-- `CPUModelRunner` state: `self.model`, `self.tokenizer`, `self.is_loaded`.
`__init__` sets `model = None`, `tokenizer = None`, `is_loaded = False`. -/
structure Runner where
  modelAttr : Attr
  tokenizerAttr : Attr
  isLoaded : Bool
  deriving DecidableEq

def mkRunner : Runner :=
  { modelAttr := Attr.noneVal, tokenizerAttr := Attr.noneVal, isLoaded := false }

/-- A runner whose `load_model` completed: `self.model` and `self.tokenizer`
assigned, `is_loaded = True`. -/
def loadedRunner : Runner :=
  { modelAttr := Attr.present, tokenizerAttr := Attr.present, isLoaded := true }

/-- `CPUModelRunner.unload_model`:
`if self.model: del self.model; del self.tokenizer; ...; self.is_loaded = False`.
Reading `self.model` after it was deleted raises `AttributeError`; note that
`del self.model` leaves the attribute deleted (unlike the embedding handler,
which re-assigns `None` after the `del`). -/
def unloadModel (r : Runner) : Except String Runner :=
  match r.modelAttr with
  | .deleted => .error ("AttributeError: model")
  | .noneVal => .ok r
  | .present =>
    match r.tokenizerAttr with
    | .deleted => .error ("AttributeError: tokenizer")
    | _ => .ok { r with modelAttr := Attr.deleted, tokenizerAttr := Attr.deleted,
                        isLoaded := false }

/-- `EmbeddingModelHandler` state (`self.model`, `self.is_loaded`). -/
structure EmbHandler where
  modelAttr : Attr
  isLoaded : Bool
  deriving DecidableEq

/-- `EmbeddingModelHandler.unload`:
`if self.model: del self.model; self.model = None; self.is_loaded = False`.
The re-assignment restores the attribute, so this one is idempotent. -/
def unloadEmb (h : EmbHandler) : Except String EmbHandler :=
  match h.modelAttr with
  | .deleted => .error ("AttributeError: model")
  | .noneVal => .ok h
  | .present => .ok { h with modelAttr := Attr.noneVal, isLoaded := false }

structure LInstance where
  modelId : String
  modelName : String
  port : Nat
  status : ModelStatus
  errorMessage : Option String
  runner : Option Runner
  embeddingHandler : Option EmbHandler
  deriving DecidableEq

structure LState where
  instances : List (String × LInstance)
  nextPort : Nat
  deriving DecidableEq

/-- Second half of the `try` body of `stop_model`: unload the embedding
handler if any, then set `STOPPED`.  Returns the (partially) mutated
instance and the exception message if one was raised. -/
def stopTryEmb (inst : LInstance) : LInstance × Option String :=
  match inst.embeddingHandler with
  | some h =>
    match unloadEmb h with
    | .error e => (inst, some e)
    | .ok h1 =>
      ({ inst with embeddingHandler := some h1, status := ModelStatus.stopped }, none)
  | none => ({ inst with status := ModelStatus.stopped }, none)

/-- The whole `try` body of `LightweightModelManager.stop_model`: set
`STOPPING`, unload the runner if any, then `stopTryEmb`.  Mutations made
before an exception persist (the instance object is shared). -/
def stopTryBody (inst0 : LInstance) : LInstance × Option String :=
  let inst := { inst0 with status := ModelStatus.stopping }
  match inst.runner with
  | some r =>
    match unloadModel r with
    | .error e => (inst, some e)
    | .ok r1 => stopTryEmb { inst with runner := some r1 }
  | none => stopTryEmb inst

/-- `LightweightModelManager.stop_model(model_id)`: `ValueError` (modelled as
`.error`) when the id is unknown; otherwise run the `try` body, and on an
exception record `error_message` and return `False`. -/
def stopModelL (st : LState) (modelId : String) : Except String (Bool × LState) :=
  match lookupA st.instances modelId with
  | none => .error ("Model " ++ modelId ++ " not found")
  | some inst =>
    match stopTryBody inst with
    | (inst1, none) =>
      .ok (true, { st with instances := setA st.instances modelId inst1 })
    | (inst1, some e) =>
      let inst2 := { inst1 with errorMessage := some ("Stop failed: " ++ e) }
      .ok (false, { st with instances := setA st.instances modelId inst2 })

/-- `LightweightModelManager.remove_model(model_id)`: when present, stop
(result ignored) then delete from the registry and return `True`; otherwise
return `False` — no exception is raised for an unknown id. -/
def removeModelL (st : LState) (modelId : String) : Except String (Bool × LState) :=
  if containsA st.instances modelId then
    match stopModelL st modelId with
    | .error e => .error e
    | .ok (_, st1) => .ok (true, { st1 with instances := eraseA st1.instances modelId })
  else
    .ok (false, st)

/-- `LightweightModelManager.get_model(model_id)`. -/
def getModelL (st : LState) (modelId : String) : Option LInstance :=
  lookupA st.instances modelId

/-- An HTTP error response raised by the router layer. -/
structure HTTPError where
  status : Nat
  detail : String
  deriving DecidableEq

/-- The route handler `DELETE /models/{model_id}`
(`app/routers/models.py`, `remove_model`): a `False` from the manager is
translated into a 404 response; an uncaught manager exception would surface
as a 500 (unreachable here, since `remove_model` only raises via
`stop_model` on an id it just found present). -/
def routerRemoveModel (st : LState) (modelId : String) :
    Except HTTPError (String × LState) :=
  match removeModelL st modelId with
  | .error e => .error { status := 500, detail := e }
  | .ok (true, st1) => .ok ("模型 " ++ modelId ++ " 已移除", st1)
  | .ok (false, _) => .error { status := 404, detail := "模型 " ++ modelId ++ " 不存在" }

/-- `remove_model` combined with the Log Store: the body of
`LightweightModelManager.remove_model` (and of `ModelManager.remove_model`)
never calls into `model_logger`, so the log-store component is passed through
unchanged.  (`ModelLogger.remove_model` exists but has no caller.) -/
def removeModelFull (st : LState) (lg : ModelLogger.LoggerState) (modelId : String) :
    Except String (Bool × LState × ModelLogger.LoggerState) :=
  match removeModelL st modelId with
  | .error e => .error e
  | .ok (b, st1) => .ok (b, st1, lg)

end Lightweight

/-! ## Workflow Executor (`app/services/workflow_engine.py`)

`WorkflowExecutor` holds `nodes : Dict[str, WorkflowNode]`,
`edges : List[WorkflowEdge]`, `adjacency : defaultdict(list)` and
`in_degree : defaultdict(int)`.  `adjacency` is only ever built by appending
`edge.target` to `adjacency[edge.source]` in edge order, so it is derived
here from the edge list (`adjacencyOf`); `in_degree` is kept explicitly
because its key set and iteration order matter (`validate_dag` and
`get_execution_order` iterate it).  Degree values are `Int` because
`get_execution_order` stores `-1` as a processed marker.

The node's `position` field is opaque UI data used by no operation and is
omitted; per-node wall-clock durations are abstracted to `0`.  The generate
call of `execute_node` — `manager.get_model` + the RUNNING check +
`manager.generate(model_id, prompt, 256, 0.7)` — is abstracted by a
`GenOracle` mapping the model id and the built prompt to either the
generated text or the exception message caught by the node's handler. -/

namespace Workflow

structure NodeSpec where
  nodeId : String
  modelId : String
  modelName : String
  promptTemplate : String
  deriving DecidableEq

structure WNode where
  nodeId : String
  modelId : String
  modelName : String
  promptTemplate : String
  output : Option String
  error : Option String
  executionTime : Nat
  deriving DecidableEq

/-- `WorkflowNode.__init__`: result fields start unset. -/
def mkWNode (s : NodeSpec) : WNode :=
  { nodeId := s.nodeId, modelId := s.modelId, modelName := s.modelName,
    promptTemplate := s.promptTemplate, output := none, error := none,
    executionTime := 0 }

structure WState where
  nodes : List (String × WNode)
  edges : List (String × String)
  inDeg : List (String × Int)
  deriving DecidableEq

def emptyW : WState :=
  { nodes := [], edges := [], inDeg := [] }

/-- `WorkflowExecutor.add_node(node)`. -/
def addNode (st : WState) (s : NodeSpec) : WState :=
  { st with
    nodes := setA st.nodes s.nodeId (mkWNode s),
    inDeg := if containsA st.inDeg s.nodeId then st.inDeg else st.inDeg ++ [(s.nodeId, 0)] }

/-- `WorkflowExecutor.add_edge(edge)`: append the edge, bump the target's
in-degree (`defaultdict` creates it at `0` first), then ensure the source is
an `in_degree` key. -/
def addEdge (st : WState) (source target : String) : WState :=
  let inDeg1 :=
    match lookupA st.inDeg target with
    | some v => setA st.inDeg target (v + 1)
    | none => st.inDeg ++ [(target, 1)]
  let inDeg2 := if containsA inDeg1 source then inDeg1 else inDeg1 ++ [(source, 0)]
  { st with edges := st.edges ++ [(source, target)], inDeg := inDeg2 }

inductive WOp where
  | node (s : NodeSpec)
  | edge (source target : String)

def applyWOp (st : WState) (op : WOp) : WState :=
  match op with
  | .node s => addNode st s
  | .edge s t => addEdge st s t

/-- A graph built by a sequence of `add_node`/`add_edge` calls on a fresh
executor (as `create_workflow_from_definition` does). -/
def builtFrom (ops : List WOp) : WState :=
  ops.foldl applyWOp emptyW

/-- `self.adjacency[s]`: the targets of the edges out of `s`, in edge
insertion order. -/
def adjacencyOf (st : WState) (s : String) : List String :=
  (st.edges.filter (fun e => decide (e.1 = s))).map Prod.snd

def degSum (temp : List (String × Int)) : Nat :=
  (temp.map (fun p => p.2.toNat)).sum

/-- `temp_in_degree[n] -= 1` on a `defaultdict(int)`: a missing key is
created at `0` first.  Returns the updated dict and the new value. -/
def decTarget (temp : List (String × Int)) (n : String) : List (String × Int) × Int :=
  match lookupA temp n with
  | some v => (setA temp n (v - 1), v - 1)
  | none => (temp ++ [(n, -1)], -1)

/-- The inner loop of `validate_dag`: decrement each neighbor, enqueueing
those that reach exactly `0`. -/
def kahnNeighbors (temp : List (String × Int)) (queue : List String)
    (neighbors : List String) : List (String × Int) × List String :=
  match neighbors with
  | [] => (temp, queue)
  | n :: rest =>
    let p := decTarget temp n
    kahnNeighbors p.1 (if p.2 = 0 then queue ++ [n] else queue) rest

/-- The `while queue:` loop of `validate_dag`, with explicit fuel.  Each
iteration strictly decreases `kahnMeasure`, so the fuel chosen in
`validateDag` is never exhausted before the queue empties (proved below). -/
def kahnRun (adj : String → List String) (fuel : Nat) (temp : List (String × Int))
    (queue : List String) (processed : Nat) : Nat :=
  match fuel, queue with
  | _, [] => processed
  | 0, _ :: _ => processed
  | fuel' + 1, current :: rest =>
    let p := kahnNeighbors temp rest (adj current)
    kahnRun adj fuel' p.1 p.2 (processed + 1)

def kahnMeasure (temp : List (String × Int)) (queue : List String) : Nat :=
  queue.length + degSum temp

/-- `WorkflowExecutor.validate_dag()`. -/
def validateDag (st : WState) : Bool × Option String :=
  if st.nodes.isEmpty then
    (false, some ("Workflow has no nodes"))
  else
    let temp := st.inDeg
    let queue := (temp.filter (fun p => decide (p.2 = 0))).map Prod.fst
    let processed := kahnRun (adjacencyOf st) (kahnMeasure temp queue + 1) temp queue 0
    if processed = st.nodes.length then (true, none)
    else (false, some ("Workflow contains cycles (not a valid DAG)"))

/-- `if temp_in_degree[neighbor] > 0: temp_in_degree[neighbor] -= 1`; the
guard's `defaultdict` read creates a missing key at `0` (and `0 > 0` fails,
so no decrement happens for it). -/
def decIfPos (temp : List (String × Int)) (n : String) : List (String × Int) :=
  match lookupA temp n with
  | some v => if v > 0 then setA temp n (v - 1) else temp
  | none => temp ++ [(n, 0)]

/-- Processing of one layer in `get_execution_order`: mark each member `-1`,
then conditionally decrement its successors. -/
def processLayer (adj : String → List String) (temp : List (String × Int))
    (layer : List String) : List (String × Int) :=
  layer.foldl (fun t nid => (adj nid).foldl decIfPos (setA t nid (-1))) temp

/-- The `while any(degree == 0 ...)` loop of `get_execution_order`, with
explicit fuel (sufficient for every graph built by `add_node`/`add_edge`,
proved below). -/
def layersRun (adj : String → List String) (fuel : Nat)
    (temp : List (String × Int)) : List (List String) :=
  match fuel with
  | 0 => []
  | fuel' + 1 =>
    let layer := (temp.filter (fun p => decide (p.2 = 0))).map Prod.fst
    if layer.isEmpty then []
    else layer :: layersRun adj fuel' (processLayer adj temp layer)

/-- `WorkflowExecutor.get_execution_order()`. -/
def getExecutionOrder (st : WState) : List (List String) :=
  layersRun (adjacencyOf st) (st.inDeg.length + 1) st.inDeg

/-- `WorkflowExecutor.build_prompt(node, user_input, predecessor_outputs)`:
replace the literal token `{input}` by the user input, then each
`{pred_id}` token by that predecessor's output, in dict order. -/
def buildPrompt (tmpl userInput : String) (predOutputs : List (String × String)) : String :=
  predOutputs.foldl
    (fun acc po => acc.replace ("\x7b" ++ po.1 ++ "\x7d") po.2)
    (tmpl.replace ("\x7binput\x7d") userInput)

/-- The generate capability seen by `execute_node` (model lookup + RUNNING
check + `manager.generate`): model id and prompt to generated text, or the
exception message the node's `except` clause catches. -/
abbrev GenOracle := String → String → Except String String

/-- `WorkflowExecutor.execute_node(node, user_input, predecessor_outputs)`:
build the prompt, call generate; on success store the stripped output, on
any exception store the message in `error` and leave `output` unset. -/
def executeNode (gen : GenOracle) (node : WNode) (userInput : String)
    (predOutputs : List (String × String)) : WNode :=
  match gen node.modelId (buildPrompt node.promptTemplate userInput predOutputs) with
  | .ok out => { node with output := some out.trim }
  | .error e => { node with error := some e }

/-- Key dedup with first-occurrence order, as a Python dict comprehension
performs on its keys. -/
def dedupFirstAux (seen : List String) : List String → List String
  | [] => []
  | x :: xs => if x ∈ seen then dedupFirstAux seen xs else x :: dedupFirstAux (x :: seen) xs

def dedupFirst (l : List String) : List String :=
  dedupFirstAux [] l

/-- The predecessors of `nodeId`:
`[edge.source for edge in self.edges if edge.target == node_id]`. -/
def predsOf (edges : List (String × String)) (nodeId : String) : List String :=
  (edges.filter (fun e => decide (e.2 = nodeId))).map Prod.fst

/-- The task-creation loop over one layer: look each node up (a missing key
raises `KeyError`) and capture its `predecessor_outputs` from the current
`all_outputs` (`all_outputs.get(pred_id, "")`). -/
def layerSpecs (nodesMap : List (String × WNode)) (edges : List (String × String))
    (allOutputs : List (String × String)) (layer : List String) :
    Except String (List (String × List (String × String))) :=
  match layer with
  | [] => .ok []
  | nid :: rest =>
    match lookupA nodesMap nid with
    | none => .error ("KeyError: " ++ nid)
    | some _ =>
      let pouts := (dedupFirst (predsOf edges nid)).map
        (fun p => (p, (lookupA allOutputs p).getD ""))
      match layerSpecs nodesMap edges allOutputs rest with
      | .error e => .error e
      | .ok specs => .ok ((nid, pouts) :: specs)

/-- The await loop over one layer: run each node, store it back, and record
its output into `all_outputs` when truthy (`if node.output:`). -/
def layerAwait (gen : GenOracle) (userInput : String)
    (nodesMap : List (String × WNode)) (allOutputs : List (String × String)) :
    List (String × List (String × String)) →
    List (String × WNode) × List (String × String) × Option String
  | [] => (nodesMap, allOutputs, none)
  | (nid, pouts) :: rest =>
    match lookupA nodesMap nid with
    | none => (nodesMap, allOutputs, some ("KeyError: " ++ nid))
    | some node =>
      let node1 := executeNode gen node userInput pouts
      let nodesMap1 := setA nodesMap nid node1
      let allOutputs1 :=
        match node1.output with
        | some o => if o = "" then allOutputs else setA allOutputs nid o
        | none => allOutputs
      layerAwait gen userInput nodesMap1 allOutputs1 rest

/-- Layer-by-layer execution; an uncaught exception (`KeyError`) aborts the
run but keeps the node mutations made so far, exactly as the Python object
state would. -/
def execLayers (gen : GenOracle) (userInput : String) (edges : List (String × String)) :
    List (List String) → List (String × WNode) → List (String × String) →
    List (String × WNode) × Option String
  | [], nodesMap, _ => (nodesMap, none)
  | layer :: rest, nodesMap, allOutputs =>
    match layerSpecs nodesMap edges allOutputs layer with
    | .error e => (nodesMap, some e)
    | .ok specs =>
      match layerAwait gen userInput nodesMap allOutputs specs with
      | (m1, _, some e) => (m1, some e)
      | (m1, o1, none) => execLayers gen userInput edges rest m1 o1

structure NodeRes where
  modelId : String
  modelName : String
  output : Option String
  error : Option String
  executionTime : Nat
  deriving DecidableEq

def nodeRes (n : WNode) : NodeRes :=
  { modelId := n.modelId, modelName := n.modelName, output := n.output,
    error := n.error, executionTime := n.executionTime }

/-- The result dict of `execute`.  The invalid-graph return carries only
`success`/`error`/`nodes` in Python; the numeric fields are `0` there. -/
structure WResult where
  success : Bool
  error : Option String
  totalExecutionTime : Nat
  layers : Nat
  nodes : List (String × NodeRes)
  deriving DecidableEq

/-- `WorkflowExecutor.execute(user_input)`: validate, compute layers, run
them, and aggregate.  Returns the final executor state (its possibly mutated
`nodes`) together with the returned dict or the uncaught exception. -/
def execute (st : WState) (gen : GenOracle) (userInput : String) :
    WState × Except String WResult :=
  match validateDag st with
  | (false, err) =>
    (st, .ok { success := false, error := err, totalExecutionTime := 0,
               layers := 0, nodes := [] })
  | (true, _) =>
    let layers := getExecutionOrder st
    match execLayers gen userInput st.edges layers st.nodes [] with
    | (m1, some e) => ({ st with nodes := m1 }, .error e)
    | (m1, none) =>
      ({ st with nodes := m1 },
       .ok { success := true, error := none,
             totalExecutionTime := (m1.map (fun p => p.2.executionTime)).sum,
             layers := layers.length,
             nodes := m1.map (fun p => (p.1, nodeRes p.2)) })

/-- The output a finished run records for node `p`, as dependents see it:
its `output` if set, else the empty string. -/
def recordedOutput (rnodes : List (String × NodeRes)) (p : String) : String :=
  match lookupA rnodes p with
  | some en => en.output.getD ""
  | none => ""

/-- Same view on the executor's own node map. -/
def outVal : Option WNode → String
  | some nd => nd.output.getD ""
  | none => ""

/-- A nonempty path along the edge list. -/
inductive EdgePath (E : List (String × String)) : String → String → Prop
  | single {a b : String} : (a, b) ∈ E → EdgePath E a b
  | tail {a b c : String} : EdgePath E a b → (b, c) ∈ E → EdgePath E a c

def Acyclic (E : List (String × String)) : Prop :=
  ∀ v, ¬ EdgePath E v v

/-- Every edge references a node present in the graph. -/
def EdgeClosed (st : WState) : Prop :=
  ∀ e ∈ st.edges, e.1 ∈ keysA st.nodes ∧ e.2 ∈ keysA st.nodes

/-- Reachable (reflexively) from some node lying on a cycle. -/
def Tainted (E : List (String × String)) (k : String) : Prop :=
  ∃ u, EdgePath E u u ∧ (u = k ∨ EdgePath E u k)

/-- Number of edges into `k` (what `add_edge` accumulates in `in_degree[k]`). -/
def indegCount (E : List (String × String)) (k : String) : Nat :=
  E.countP (fun e => decide (e.2 = k))

/-- Number of edges into `k` whose source lies in `P`. -/
def indegDone (E : List (String × String)) (P : Finset String) (k : String) : Nat :=
  E.countP (fun e => decide (e.2 = k) && decide (e.1 ∈ P))

/-- The running in-degree of `k` once the nodes of `P` have been processed. -/
def needVal (E : List (String × String)) (P : Finset String) (k : String) : Int :=
  (indegCount E k : Int) - (indegDone E P k : Int)

/-- Number of edges from `u` to `k`. -/
def outEdges (E : List (String × String)) (u k : String) : Nat :=
  E.countP (fun e => decide (e.1 = u) && decide (e.2 = k))

/-- Well-formedness of every executor state reachable by
`add_node`/`add_edge` from a fresh executor: the two dicts have unique keys,
every node id is an `in_degree` key, `in_degree[k]` counts the edges into
`k`, edge endpoints are always `in_degree` keys, every `in_degree` key comes
from a node or an edge, and stored nodes are fresh (`output`/`error`
unset). -/
structure StWf (st : WState) : Prop where
  nodesNodup : (keysA st.nodes).Nodup
  degNodup : (keysA st.inDeg).Nodup
  nodesSub : ∀ k ∈ keysA st.nodes, k ∈ keysA st.inDeg
  degVal : ∀ k v, lookupA st.inDeg k = some v → v = (indegCount st.edges k : Int)
  edgeKeys : ∀ e ∈ st.edges, e.1 ∈ keysA st.inDeg ∧ e.2 ∈ keysA st.inDeg
  keyOrigin : ∀ k ∈ keysA st.inDeg, k ∈ keysA st.nodes ∨ ∃ e ∈ st.edges, e.1 = k ∨ e.2 = k
  nodesFresh : ∀ id n, lookupA st.nodes id = some n →
    n.nodeId = id ∧ n.output = none ∧ n.error = none ∧ n.executionTime = 0

/-- Loop invariant of the Kahn run in `validate_dag`: `P` is the set of
already-popped ids. -/
structure KahnInv (st : WState) (temp : List (String × Int)) (queue : List String)
    (P : Finset String) : Prop where
  keysEq : keysA temp = keysA st.inDeg
  valAt : ∀ k ∈ keysA st.inDeg, lookupA temp k = some (needVal st.edges P k)
  qNodup : queue.Nodup
  qMem : ∀ q ∈ queue, q ∈ keysA st.inDeg ∧ q ∉ P ∧ needVal st.edges P q = 0
  pClosed : ∀ p ∈ P, p ∈ keysA st.inDeg ∧ ∀ e ∈ st.edges, e.2 = p → e.1 ∈ P
  complete : ∀ k ∈ keysA st.inDeg, k ∉ P → k ∉ queue → needVal st.edges P k ≠ 0
  qUntainted : ∀ q ∈ queue, ¬ Tainted st.edges q
  pUntainted : ∀ p ∈ P, ¬ Tainted st.edges p

/-- What holds of the processed set when the Kahn queue has drained. -/
structure KahnFinal (st : WState) (P : Finset String) : Prop where
  subK : ∀ p ∈ P, p ∈ keysA st.inDeg
  blocked : ∀ k ∈ keysA st.inDeg, k ∉ P → ∃ e ∈ st.edges, e.2 = k ∧ e.1 ∉ P
  untainted : ∀ x, Tainted st.edges x → x ∉ P

/-- The layered structure produced by `get_execution_order`: each layer is
nonempty, duplicate-free, disjoint from everything processed before it, and
all predecessors of its members were processed in strictly earlier
layers. -/
inductive LayerChain (E : List (String × String)) : Finset String → List (List String) → Prop where
  | nil (P : Finset String) : LayerChain E P []
  | cons (P : Finset String) (layer : List String) (rest : List (List String))
      (hne : layer ≠ []) (hnd : layer.Nodup)
      (hdisj : ∀ x ∈ layer, x ∉ P)
      (hpred : ∀ e ∈ E, e.2 ∈ layer → e.1 ∈ P)
      (hrest : LayerChain E (P ∪ layer.toFinset) rest) :
      LayerChain E P (layer :: rest)

/-- Loop invariant of `get_execution_order`: processed keys are marked `-1`,
unprocessed keys carry their running in-degree. -/
structure LayerInv (st : WState) (temp : List (String × Int)) (P : Finset String) : Prop where
  keysEq : keysA temp = keysA st.inDeg
  valAt : ∀ k ∈ keysA st.inDeg,
    lookupA temp k = some (if k ∈ P then (-1 : Int) else needVal st.edges P k)
  pSub : ∀ p ∈ P, p ∈ keysA st.inDeg
  pClosed : ∀ p ∈ P, ∀ e ∈ st.edges, e.2 = p → e.1 ∈ P

end Workflow

/-! ## Association-list lemmas -/

theorem lookupA_setA_self {α : Type} (l : List (String × α)) (k : String) (v : α) :
    lookupA (setA l k v) k = some v := by
  induction l with
  | nil => simp [setA, lookupA]
  | cons hd tl ih =>
    obtain ⟨k', v'⟩ := hd
    by_cases h : k' = k
    · simp [setA, lookupA, h]
    · simp [setA, lookupA, h, ih]

@[simp]
theorem keysA_nil {α : Type} : keysA ([] : List (String × α)) = [] := rfl

@[simp]
theorem keysA_cons {α : Type} (k : String) (v : α) (tl : List (String × α)) :
    keysA ((k, v) :: tl) = k :: keysA tl := rfl

theorem lookupA_setA_ne {α : Type} (l : List (String × α)) {k k' : String} (v : α)
    (h : k ≠ k') : lookupA (setA l k v) k' = lookupA l k' := by
  induction l with
  | nil => simp [setA, lookupA, h]
  | cons hd tl ih =>
    obtain ⟨k₀, v₀⟩ := hd
    by_cases h₀ : k₀ = k
    · subst h₀
      simp [setA, lookupA, h]
    · by_cases h₁ : k₀ = k'
      · simp [setA, lookupA, h₀, h₁, Ne.symm h]
      · simp [setA, lookupA, h₀, h₁, ih]

theorem lookupA_append {α : Type} (l₁ l₂ : List (String × α)) (k : String) :
    lookupA (l₁ ++ l₂) k =
      match lookupA l₁ k with
      | some v => some v
      | none => lookupA l₂ k := by
  induction l₁ with
  | nil => simp [lookupA]
  | cons hd tl ih =>
    obtain ⟨k', v'⟩ := hd
    by_cases h : k' = k
    · simp [lookupA, h]
    · simp [lookupA, h, ih]

theorem lookupA_eq_none_iff {α : Type} (l : List (String × α)) (k : String) :
    lookupA l k = none ↔ k ∉ keysA l := by
  induction l with
  | nil => simp [lookupA]
  | cons hd tl ih =>
    obtain ⟨k', v'⟩ := hd
    by_cases h : k' = k
    · subst h
      simp [lookupA]
    · simp only [lookupA, if_neg h, keysA_cons, List.mem_cons]
      rw [ih]
      constructor
      · intro hnot hk
        rcases hk with hk | hk
        · exact h hk.symm
        · exact hnot hk
      · intro hnot hk
        exact hnot (Or.inr hk)

theorem lookupA_isSome_iff {α : Type} (l : List (String × α)) (k : String) :
    (lookupA l k).isSome = true ↔ k ∈ keysA l := by
  rw [Option.isSome_iff_ne_none]
  constructor
  · intro h
    by_contra hk
    exact h ((lookupA_eq_none_iff l k).2 hk)
  · intro hk h
    exact ((lookupA_eq_none_iff l k).1 h) hk

theorem containsA_iff {α : Type} (l : List (String × α)) (k : String) :
    containsA l k = true ↔ k ∈ keysA l := by
  unfold containsA
  exact lookupA_isSome_iff l k

theorem lookupA_mem {α : Type} {l : List (String × α)} {k : String} {v : α}
    (h : lookupA l k = some v) : (k, v) ∈ l := by
  induction l with
  | nil => simp [lookupA] at h
  | cons hd tl ih =>
    obtain ⟨k', v'⟩ := hd
    by_cases hk : k' = k
    · subst hk
      simp [lookupA] at h
      simp [h]
    · simp [lookupA, hk] at h
      exact List.mem_cons_of_mem _ (ih h)

theorem setA_of_not_mem {α : Type} (l : List (String × α)) {k : String} (v : α)
    (h : lookupA l k = none) : setA l k v = l ++ [(k, v)] := by
  induction l with
  | nil => simp [setA]
  | cons hd tl ih =>
    obtain ⟨k', v'⟩ := hd
    by_cases hk : k' = k
    · simp [lookupA, hk] at h
    · simp [lookupA, hk] at h
      simp [setA, hk, ih h]

theorem keysA_setA_of_mem {α : Type} (l : List (String × α)) {k : String} (v : α)
    (h : k ∈ keysA l) : keysA (setA l k v) = keysA l := by
  induction l with
  | nil => simp at h
  | cons hd tl ih =>
    obtain ⟨k', v'⟩ := hd
    by_cases hk : k' = k
    · simp [setA, hk]
    · simp only [keysA_cons, List.mem_cons] at h
      rcases h with h | h
      · exact absurd h.symm hk
      · simp [setA, hk, ih h]

theorem keysA_append {α : Type} (l₁ l₂ : List (String × α)) :
    keysA (l₁ ++ l₂) = keysA l₁ ++ keysA l₂ := by
  simp [keysA]

theorem lookupA_eraseA_ne {α : Type} (l : List (String × α)) {k k' : String}
    (h : k ≠ k') : lookupA (eraseA l k) k' = lookupA l k' := by
  induction l with
  | nil => simp [eraseA]
  | cons hd tl ih =>
    obtain ⟨k₀, v₀⟩ := hd
    by_cases h₀ : k₀ = k
    · subst h₀
      simp [eraseA, lookupA, h]
    · by_cases h₁ : k₀ = k'
      · simp [eraseA, lookupA, h₀, h₁, Ne.symm h]
      · simp [eraseA, lookupA, h₀, h₁, ih]

theorem lookupA_eraseA_self {α : Type} (l : List (String × α)) (k : String)
    (h : (keysA l).Nodup) : lookupA (eraseA l k) k = none := by
  induction l with
  | nil => simp [eraseA, lookupA]
  | cons hd tl ih =>
    obtain ⟨k₀, v₀⟩ := hd
    simp only [keysA, List.map_cons, List.nodup_cons] at h
    by_cases h₀ : k₀ = k
    · subst h₀
      simp only [eraseA, if_pos rfl]
      exact (lookupA_eq_none_iff tl k₀).2 h.1
    · simp [eraseA, lookupA, h₀]
      exact ih h.2

theorem lastN_length {α : Type} (l : List α) {n : Nat} (h : n ≤ l.length) :
    (lastN l n).length = n := by
  simp [lastN]
  omega

/-! ## Log Store proofs (claim C6) -/

namespace ModelLogger

theorem pushBounded_length (buf : List String) (entry : String)
    (h : buf.length ≤ maxLogsPerModel) :
    (pushBounded buf entry).length ≤ maxLogsPerModel := by
  have hM : maxLogsPerModel = 500 := rfl
  unfold pushBounded
  by_cases hlt : buf.length < maxLogsPerModel
  · simp [hlt]
    omega
  · simp [hlt, List.length_tail]
    omega

theorem pushBounded_foldl (msgs : List String) :
    ∀ buf : List String, buf.length ≤ maxLogsPerModel →
      msgs.foldl pushBounded buf =
        (buf ++ msgs).drop (buf.length + msgs.length - maxLogsPerModel) := by
  induction msgs with
  | nil =>
    intro buf hb
    simp [Nat.sub_eq_zero_of_le hb]
  | cons m ms ih =>
    intro buf hb
    by_cases hlt : buf.length < maxLogsPerModel
    · have step : pushBounded buf m = buf ++ [m] := by
        simp only [pushBounded]
        rw [if_pos hlt]
      have h1 : (buf ++ [m]).length ≤ maxLogsPerModel := by
        simp only [List.length_append, List.length_cons, List.length_nil]
        omega
      have harith : (buf ++ [m]).length + ms.length - maxLogsPerModel
          = buf.length + (m :: ms).length - maxLogsPerModel := by
        simp only [List.length_append, List.length_cons, List.length_nil]
        omega
      have hlist : (buf ++ [m]) ++ ms = buf ++ m :: ms := by
        simp
      rw [List.foldl_cons, step, ih (buf ++ [m]) h1, harith, hlist]
    · have hfull : buf.length = maxLogsPerModel := by omega
      obtain ⟨hd, tl, rfl⟩ : ∃ hd tl, buf = hd :: tl := by
        cases buf with
        | nil => simp [maxLogsPerModel] at hfull
        | cons hd tl => exact ⟨hd, tl, rfl⟩
      have hfull' : tl.length + 1 = maxLogsPerModel := by
        simpa using hfull
      have step : pushBounded (hd :: tl) m = tl ++ [m] := by
        simp only [pushBounded]
        rw [if_neg hlt]
        rfl
      have htl : (tl ++ [m]).length ≤ maxLogsPerModel := by
        simp only [List.length_append, List.length_cons, List.length_nil]
        omega
      have harith : (tl ++ [m]).length + ms.length - maxLogsPerModel = ms.length := by
        simp only [List.length_append, List.length_cons, List.length_nil]
        omega
      have harith2 : (hd :: tl).length + (m :: ms).length - maxLogsPerModel = ms.length + 1 := by
        simp only [List.length_cons]
        omega
      rw [List.foldl_cons, step, ih (tl ++ [m]) htl, harith, harith2]
      have hlist : (hd :: tl) ++ m :: ms = hd :: ((tl ++ [m]) ++ ms) := by
        simp
      rw [hlist, List.drop_succ_cons]

theorem addLog_lookup (st : LoggerState) (modelId message level ts : String) :
    lookupA (addLog st modelId message level ts) modelId =
      some (pushBounded ((lookupA st modelId).getD []) (formatEntry ts level message)) := by
  unfold addLog
  by_cases h : containsA st modelId = true
  · rw [if_pos h, lookupA_setA_self]
  · rw [if_neg h, lookupA_setA_self]
    have hnone : lookupA st modelId = none := by
      rcases h' : lookupA st modelId with _ | v
      · rfl
      · exact absurd (by simp [containsA, h']) h
    rw [lookupA_append]
    simp [hnone, lookupA]

theorem addLogs_lookup (modelId : String) (appends : List Append) :
    ∀ st : LoggerState,
      (lookupA (addLogs st modelId appends) modelId).getD [] =
        (appends.map formatAppend).foldl pushBounded ((lookupA st modelId).getD []) := by
  induction appends with
  | nil => intro st; simp [addLogs]
  | cons a as ih =>
    intro st
    have h1 : addLogs st modelId (a :: as) =
        addLogs (addLog st modelId a.2.2 a.2.1 a.1) modelId as := by
      simp [addLogs]
    rw [h1, ih]
    rw [addLog_lookup]
    simp [formatAppend]

/-- Claim C6 — Log Store bounded FIFO: for every instance id, starting from
any state whose buffer for that id holds at most the capacity (in particular
from the fresh store, where the buffer does not yet exist), appending
`K > capacity` entries leaves the buffer holding exactly `capacity` entries,
equal to the most recently appended `capacity` entries in their original
insertion order (capacity = `_max_logs_per_model` = 500). -/
theorem claim_C6 (modelId : String) (appends : List Append) (st : LoggerState)
    (hb : ((lookupA st modelId).getD []).length ≤ maxLogsPerModel)
    (hk : maxLogsPerModel < appends.length) :
    (lookupA (addLogs st modelId appends) modelId).getD []
        = lastN (appends.map formatAppend) maxLogsPerModel
    ∧ ((lookupA (addLogs st modelId appends) modelId).getD []).length = maxLogsPerModel := by
  have hlen : (appends.map formatAppend).length = appends.length := by simp
  have h1 := addLogs_lookup modelId appends st
  set b := (lookupA st modelId).getD [] with hbdef
  have h2 := pushBounded_foldl (appends.map formatAppend) b hb
  have hmain : (lookupA (addLogs st modelId appends) modelId).getD []
      = lastN (appends.map formatAppend) maxLogsPerModel := by
    rw [h1, h2]
    have harith : b.length + (appends.map formatAppend).length - maxLogsPerModel
        = b.length + ((appends.map formatAppend).length - maxLogsPerModel) := by
      omega
    rw [harith, List.drop_append]
    simp [lastN]
  refine ⟨hmain, ?_⟩
  rw [hmain]
  apply lastN_length
  omega

/-- Witness for C6: 501 appends of a concrete entry to the fresh store. -/
theorem claim_C6_witness :
    (((lookupA ([] : LoggerState) ("m")).getD []).length ≤ maxLogsPerModel
      ∧ maxLogsPerModel < (List.replicate 501 (("t", "I", "x") : Append)).length)
    ∧ ((lookupA (addLogs [] ("m") (List.replicate 501 (("t", "I", "x") : Append))) ("m")).getD []).length
        = maxLogsPerModel := by
  have h1 : ((lookupA ([] : LoggerState) ("m")).getD []).length ≤ maxLogsPerModel := by
    simp [lookupA, maxLogsPerModel]
  have h2 : maxLogsPerModel < (List.replicate 501 (("t", "I", "x") : Append)).length := by
    rw [List.length_replicate]
    decide
  exact ⟨⟨h1, h2⟩, (claim_C6 ("m") (List.replicate 501 (("t", "I", "x") : Append)) [] h1 h2).2⟩

end ModelLogger

/-! ## Port Allocator proofs (claim C5) -/

namespace PortAlloc

theorem findFreePort_not_mem (used : Finset Nat) (next : Nat) :
    findFreePort used next ∉ used := by
  rw [findFreePort]
  split
  · exact findFreePort_not_mem used (next + 1)
  · assumption
termination_by (used.filter (fun p => next ≤ p)).card
decreasing_by
  rename_i h
  apply Finset.card_lt_card
  constructor
  · intro x hx
    simp only [Finset.mem_filter] at hx ⊢
    exact ⟨hx.1, Nat.le_of_succ_le hx.2⟩
  · intro hsub
    have hnext : next ∈ used.filter (fun p => next ≤ p) := by
      simp only [Finset.mem_filter]
      exact ⟨h, Nat.le_refl next⟩
    have := hsub hnext
    simp only [Finset.mem_filter] at this
    exact Nat.not_succ_le_self next this.2

theorem allocatePort_fresh (st : PortState) (preferred : Option Nat) :
    (allocatePort st preferred).1 ∉ st.usedPorts
    ∧ (allocatePort st preferred).2.usedPorts = insert (allocatePort st preferred).1 st.usedPorts := by
  cases preferred with
  | none =>
    exact ⟨findFreePort_not_mem st.usedPorts st.nextPort, rfl⟩
  | some p =>
    by_cases h : p ≠ 0 ∧ p ∉ st.usedPorts
    · have e : allocatePort st (some p) = (p, { st with usedPorts := insert p st.usedPorts }) := by
        simp only [allocatePort]
        rw [if_pos h]
      rw [e]
      exact ⟨h.2, rfl⟩
    · have e : allocatePort st (some p) =
          (findFreePort st.usedPorts st.nextPort,
           { usedPorts := insert (findFreePort st.usedPorts st.nextPort) st.usedPorts,
             nextPort := findFreePort st.usedPorts st.nextPort + 1 }) := by
        simp only [allocatePort]
        rw [if_neg h]
      rw [e]
      exact ⟨findFreePort_not_mem st.usedPorts st.nextPort, rfl⟩

theorem releasePort_not_mem (st : PortState) (p : Nat) (h : p ∉ st.usedPorts) :
    releasePort st p = st := by
  unfold releasePort
  have : st.usedPorts.erase p = st.usedPorts := Finset.erase_eq_of_not_mem h
  cases st
  simp_all

/-- Claim C5 — Port allocator invariant: after any sequence of
allocate/release operations, (a) `allocate` (with or without a preferred
port) never returns a port currently held, and marks the returned port held
— so the held-port set (a mathematical set) never holds two equal ports and
no two simultaneously held ports coincide; and (b) releasing a port that is
not held is a no-op on the entire allocator state. -/
theorem claim_C5 (ops : List PortOp) (preferred : Option Nat) (p : Nat) :
    ((allocatePort (runPortOps ops) preferred).1 ∉ (runPortOps ops).usedPorts
      ∧ (allocatePort (runPortOps ops) preferred).2.usedPorts
          = insert (allocatePort (runPortOps ops) preferred).1 (runPortOps ops).usedPorts)
    ∧ (p ∉ (runPortOps ops).usedPorts → releasePort (runPortOps ops) p = runPortOps ops) :=
  ⟨allocatePort_fresh (runPortOps ops) preferred,
   releasePort_not_mem (runPortOps ops) p⟩

/-- Witness for C5, on the spec's Scenario E prefix: allocate preferred 8000,
then release an unheld port 9999. -/
theorem claim_C5_witness :
    (9999 ∉ (runPortOps [PortOp.alloc (some 8000)]).usedPorts)
    ∧ releasePort (runPortOps [PortOp.alloc (some 8000)]) 9999
        = runPortOps [PortOp.alloc (some 8000)] := by
  have h : 9999 ∉ (runPortOps [PortOp.alloc (some 8000)]).usedPorts := by
    decide
  exact ⟨h, (claim_C5 [PortOp.alloc (some 8000)] none 9999).2 h⟩

end PortAlloc

/-! ## Process-based manager proofs (claims C2, C10) -/

namespace ProcessManager

/-- Claim C2 (refuted by the code, supporting the code_bug verdict): on the
spawn-success path of `_start_vllm_process`, the instance's status is set to
`RUNNING` immediately after `Popen` returns — before the log-reader task has
observed a single line, hence before any readiness marker could have been
seen in the instance's log stream.  Starting from any instance whose log
buffer is still empty (as it is at deploy time), after the spawn the status
is `RUNNING` while the log buffer is still empty. -/
theorem claim_C2_code_eval (inst : MInstance) (pid : Nat) (h : inst.logBuffer = []) :
    (startVllmProcess inst (SpawnOutcome.ok pid)).status = ModelStatus.running
    ∧ (startVllmProcess inst (SpawnOutcome.ok pid)).logBuffer = []
    ∧ ¬∃ line ∈ (startVllmProcess inst (SpawnOutcome.ok pid)).logBuffer,
        isReadinessMarker line = true := by
  refine ⟨rfl, h, ?_⟩
  simp [startVllmProcess, h]

/-- Witness for C2's code evaluation: a freshly created instance. -/
theorem claim_C2_witness :
    (mkModelInstance ("m") ("n") 8000).logBuffer = []
    ∧ (startVllmProcess (mkModelInstance ("m") ("n") 8000) (SpawnOutcome.ok 77)).status
        = ModelStatus.running :=
  ⟨rfl, (claim_C2_code_eval (mkModelInstance ("m") ("n") 8000) 77 rfl).1⟩

theorem stopModel_shape (term : TermOutcome) (st : MState) (modelId : String)
    {inst : MInstance} (hin : lookupA st.instances modelId = some inst) :
    ∃ b st1, stopModel term st modelId = .ok (b, st1)
      ∧ keysA st1.instances = keysA st.instances := by
  have hmem : modelId ∈ keysA st.instances := by
    rw [← lookupA_isSome_iff, hin]
    rfl
  cases hb : (!inst.hasProcess || inst.pid.isNone) with
  | true =>
    refine ⟨true, { st with instances := setA st.instances modelId ({ inst with status := ModelStatus.stopped }) }, ?_, keysA_setA_of_mem st.instances _ hmem⟩
    simp [stopModel, hin, hb]
  | false =>
    cases term with
    | ok =>
      refine ⟨true, { st with instances := setA st.instances modelId ({ inst with status := ModelStatus.stopped, pid := none }), usedPorts := st.usedPorts.erase inst.port }, ?_, keysA_setA_of_mem st.instances _ hmem⟩
      simp [stopModel, hin, hb]
    | raise msg =>
      refine ⟨false, { st with instances := setA st.instances modelId ({ inst with status := ModelStatus.stopping, errorMessage := some ("停止失败: " ++ msg) }) }, ?_, keysA_setA_of_mem st.instances _ hmem⟩
      simp [stopModel, hin, hb]

/-- Claim C10 — `remove_model` on a known instance is not atomic with
respect to stop failure: for every registry state (keys unique, as Python
dicts guarantee) holding the id, `remove_model` deletes the instance and
returns `True` for every termination outcome, including the one where the
internal `stop_model` fails; afterwards `get_model` returns nothing.  And
when the instance has a live process and the termination sequence raises,
that internal `stop_model` returns `False`, records `停止失败: ...` in the
instance's `error_message`, and leaves it in `STOPPING`. -/
theorem claim_C10 (st : MState) (modelId : String) (term : TermOutcome)
    (inst : MInstance) (hnd : (keysA st.instances).Nodup)
    (hin : lookupA st.instances modelId = some inst) :
    (∃ st2, removeModel term st modelId = .ok (true, st2) ∧ getModel st2 modelId = none)
    ∧ (∀ msg p, inst.hasProcess = true → inst.pid = some p →
        ∃ st1, stopModel (TermOutcome.raise msg) st modelId = .ok (false, st1)
          ∧ lookupA st1.instances modelId =
              some { inst with status := ModelStatus.stopping,
                               errorMessage := some ("停止失败: " ++ msg) }) := by
  have hcont : containsA st.instances modelId = true := by
    simp [containsA, hin]
  constructor
  · obtain ⟨b, st1, hstop, hkeys⟩ := stopModel_shape term st modelId hin
    refine ⟨{ st1 with instances := eraseA st1.instances modelId }, ?_, ?_⟩
    · unfold removeModel
      rw [if_pos hcont, hstop]
    · unfold getModel
      apply lookupA_eraseA_self
      rw [hkeys]
      exact hnd
  · intro msg p hproc hpid
    have hp : (!inst.hasProcess || inst.pid.isNone) = false := by
      rw [hproc, hpid]
      rfl
    refine ⟨{ st with instances := setA st.instances modelId ({ inst with status := ModelStatus.stopping, errorMessage := some ("停止失败: " ++ msg) }) }, ?_, ?_⟩
    · simp [stopModel, hin, hp]
    · exact lookupA_setA_self st.instances modelId _

/-- Witness for C10: a single-instance registry with a live process whose
termination raises. -/
theorem claim_C10_witness :
    (keysA [(("a" : String),
        ({ modelId := "a", modelName := "n", port := 8000, hasProcess := true,
           pid := some 5, status := ModelStatus.running, startTimeSet := true,
           errorMessage := none, logBuffer := [] } : MInstance) )]).Nodup
    ∧ ∃ st2, removeModel (TermOutcome.raise ("boom"))
          { instances := [(("a" : String),
              { modelId := "a", modelName := "n", port := 8000, hasProcess := true,
                pid := some 5, status := ModelStatus.running, startTimeSet := true,
                errorMessage := none, logBuffer := [] } )],
            usedPorts := {8000}, nextPort := 8001 } ("a") = .ok (true, st2)
        ∧ getModel st2 ("a") = none := by
  refine ⟨by simp, ?_⟩
  exact (claim_C10 { instances := [(("a" : String), { modelId := "a", modelName := "n", port := 8000, hasProcess := true, pid := some 5, status := ModelStatus.running, startTimeSet := true, errorMessage := none, logBuffer := [] } )], usedPorts := {8000}, nextPort := 8001 } ("a") (TermOutcome.raise ("boom")) { modelId := "a", modelName := "n", port := 8000, hasProcess := true, pid := some 5, status := ModelStatus.running, startTimeSet := true, errorMessage := none, logBuffer := [] } (by simp) (by decide)).1

end ProcessManager

/-! ## Lightweight manager proofs (claims C7, C8, C9) -/

namespace Lightweight

/-- Claim C7 counterexample: `remove(id)` on an unknown id does not fail
with a NotFoundError-style exception — it returns the plain failure value
`False` (and leaves the state untouched).  Concretely, on the empty registry
the service-level `remove_model` returns `False` rather than raising. -/
theorem claim_C7_counterexample :
    removeModelL { instances := [], nextPort := 8000 } ("gpt2-123456")
      = .ok (false, { instances := [], nextPort := 8000 }) := by
  rfl

/-- Claim C7 as amended: for every registry state not containing the id, the
Instance-Manager-level `remove_model` returns the plain failure value
`False` without raising, and it is the HTTP route layer
(`DELETE /models/{model_id}`) that converts this `False` into the
NotFoundError — an `HTTPException` with status 404. -/
theorem claim_C7_amended (st : LState) (modelId : String)
    (h : lookupA st.instances modelId = none) :
    removeModelL st modelId = .ok (false, st)
    ∧ routerRemoveModel st modelId
        = .error { status := 404, detail := "模型 " ++ modelId ++ " 不存在" } := by
  have hcont : containsA st.instances modelId = false := by
    simp [containsA, h]
  have h1 : removeModelL st modelId = .ok (false, st) := by
    unfold removeModelL
    rw [hcont]
    rfl
  refine ⟨h1, ?_⟩
  unfold routerRemoveModel
  rw [h1]

/-- Witness for the amended C7: removing an id from the empty registry. -/
theorem claim_C7_witness :
    lookupA (LState.instances { instances := [], nextPort := 8000 }) ("x") = none
    ∧ routerRemoveModel { instances := [], nextPort := 8000 } ("x")
        = .error { status := 404, detail := "模型 " ++ "x" ++ " 不存在" } :=
  ⟨rfl, (claim_C7_amended { instances := [], nextPort := 8000 } ("x") rfl).2⟩

/-- Claim C8 (refuted by the code, supporting the code_bug verdict): after a
successful `remove(id)` the instance's Log Store entry still exists —
`remove_model` never calls `ModelLogger.remove_model` (which is dead code).
On a concrete one-instance state with one buffered log entry: the removal
succeeds and deletes the instance, yet the log store still returns the old
buffer (whereas the uncalled `ModelLogger.remove_model` would have emptied
it). -/
theorem claim_C8_code_eval :
    removeModelFull
        { instances := [(("gpt2-1" : String),
            { modelId := "gpt2-1", modelName := "gpt2", port := 8000,
              status := ModelStatus.running, errorMessage := none,
              runner := none, embeddingHandler := none } )], nextPort := 8001 }
        [(("gpt2-1" : String), ["[t] [INFO] deploy"])] ("gpt2-1")
      = .ok (true, { instances := [], nextPort := 8001 },
             [(("gpt2-1" : String), ["[t] [INFO] deploy"])])
    ∧ ModelLogger.getLogs [(("gpt2-1" : String), ["[t] [INFO] deploy"])] ("gpt2-1") 500
        = ["[t] [INFO] deploy"]
    ∧ ModelLogger.removeModel [(("gpt2-1" : String), ["[t] [INFO] deploy"])] ("gpt2-1")
        = [] := by
  refine ⟨?_, ?_, ?_⟩ <;> rfl

/-- Claim C9 (refuted by the code, supporting the code_bug verdict): `stop`
is not idempotent for a chat instance whose model loaded.  The first stop
succeeds and leaves `STOPPED`, but `unload_model` executed `del self.model`
without re-assigning the attribute, so the second stop's `if self.model:`
raises `AttributeError`; the second call therefore returns `False` and
leaves the instance in `STOPPING` with a `Stop failed:` error message. -/
theorem claim_C9_code_eval :
    stopModelL
        { instances := [(("gpt2-1" : String),
            { modelId := "gpt2-1", modelName := "gpt2", port := 8000,
              status := ModelStatus.running, errorMessage := none,
              runner := some loadedRunner, embeddingHandler := none } )],
          nextPort := 8001 } ("gpt2-1")
      = .ok (true, { instances := [(("gpt2-1" : String),
            { modelId := "gpt2-1", modelName := "gpt2", port := 8000,
              status := ModelStatus.stopped, errorMessage := none,
              runner := some { modelAttr := Attr.deleted, tokenizerAttr := Attr.deleted,
                               isLoaded := false },
              embeddingHandler := none } )], nextPort := 8001 })
    ∧ stopModelL
        { instances := [(("gpt2-1" : String),
            { modelId := "gpt2-1", modelName := "gpt2", port := 8000,
              status := ModelStatus.stopped, errorMessage := none,
              runner := some { modelAttr := Attr.deleted, tokenizerAttr := Attr.deleted,
                               isLoaded := false },
              embeddingHandler := none } )], nextPort := 8001 } ("gpt2-1")
      = .ok (false, { instances := [(("gpt2-1" : String),
            { modelId := "gpt2-1", modelName := "gpt2", port := 8000,
              status := ModelStatus.stopping,
              errorMessage := some ("Stop failed: AttributeError: model"),
              runner := some { modelAttr := Attr.deleted, tokenizerAttr := Attr.deleted,
                               isLoaded := false },
              embeddingHandler := none } )], nextPort := 8001 }) := by
  exact ⟨rfl, rfl⟩

end Lightweight

/-! ## Workflow proofs (claims C1, C3, C4)

First, counting lemmas about `List.countP` used to track the in-degree
bookkeeping, then the two loop invariants (`KahnInv`, `LayerInv`), then the
claims themselves. -/

namespace Workflow

theorem countP_mono_of_imp {α : Type} (l : List α) (p q : α → Bool)
    (h : ∀ x ∈ l, p x = true → q x = true) : l.countP p ≤ l.countP q := by
  induction l with
  | nil => simp
  | cons a l ih =>
    rw [List.countP_cons, List.countP_cons]
    have hrest := ih (fun x hx => h x (List.mem_cons_of_mem a hx))
    by_cases hp : p a = true
    · have hq := h a (List.mem_cons_self a l) hp
      simp [hp, hq]
      omega
    · simp [hp]
      by_cases hq : q a = true <;> simp [hq] <;> omega

theorem countP_saturated {α : Type} (l : List α) (p q : α → Bool)
    (himp : ∀ x ∈ l, p x = true → q x = true)
    (hle : l.countP q ≤ l.countP p) :
    ∀ x ∈ l, q x = true → p x = true := by
  induction l with
  | nil => simp
  | cons a l ih =>
    intro x hx hqx
    rw [List.countP_cons, List.countP_cons] at hle
    have himpl : ∀ y ∈ l, p y = true → q y = true :=
      fun y hy => himp y (List.mem_cons_of_mem a hy)
    have hmono := countP_mono_of_imp l p q himpl
    by_cases hpa : p a = true
    · have hqa := himp a (List.mem_cons_self a l) hpa
      simp [hpa, hqa] at hle
      rcases List.mem_cons.1 hx with rfl | hx'
      · exact hpa
      · exact ih himpl (by omega) x hx' hqx
    · rcases List.mem_cons.1 hx with rfl | hx'
      · by_cases hqa : q x = true
        · simp [hpa, hqa] at hle
          omega
        · exact absurd hqx hqa
      · by_cases hqa : q a = true
        · simp [hpa, hqa] at hle
          omega
        · simp [hpa, hqa] at hle
          exact ih himpl (by omega) x hx' hqx

theorem countP_disjoint_add_le {α : Type} (l : List α) (p q r : α → Bool)
    (hp : ∀ x ∈ l, p x = true → r x = true)
    (hq : ∀ x ∈ l, q x = true → r x = true)
    (hdisj : ∀ x ∈ l, ¬(p x = true ∧ q x = true)) :
    l.countP p + l.countP q ≤ l.countP r := by
  induction l with
  | nil => simp
  | cons a l ih =>
    rw [List.countP_cons, List.countP_cons, List.countP_cons]
    have hrest := ih (fun x hx => hp x (List.mem_cons_of_mem a hx))
      (fun x hx => hq x (List.mem_cons_of_mem a hx))
      (fun x hx => hdisj x (List.mem_cons_of_mem a hx))
    by_cases hpa : p a = true
    · have hra := hp a (List.mem_cons_self a l) hpa
      have hqa : ¬ q a = true := fun hqa => hdisj a (List.mem_cons_self a l) ⟨hpa, hqa⟩
      simp [hpa, hqa, hra]
      omega
    · by_cases hqa : q a = true
      · have hra := hq a (List.mem_cons_self a l) hqa
        simp [hpa, hqa, hra]
        omega
      · simp [hpa, hqa]
        by_cases hra : r a = true <;> simp [hra] <;> omega

theorem countP_congr_mem {α : Type} (l : List α) (p q : α → Bool)
    (h : ∀ x ∈ l, p x = q x) : l.countP p = l.countP q := by
  induction l with
  | nil => rfl
  | cons a l ih =>
    rw [List.countP_cons, List.countP_cons,
      ih (fun x hx => h x (List.mem_cons_of_mem a hx)), h a (List.mem_cons_self a l)]

theorem indegDone_le_indegCount (E : List (String × String)) (P : Finset String)
    (k : String) : indegDone E P k ≤ indegCount E k := by
  apply countP_mono_of_imp
  intro e _ he
  simp only [Bool.and_eq_true] at he
  exact he.1

theorem needVal_nonneg (E : List (String × String)) (P : Finset String) (k : String) :
    0 ≤ needVal E P k := by
  have := indegDone_le_indegCount E P k
  unfold needVal
  omega

theorem indegDone_insert (E : List (String × String)) (P : Finset String)
    (u k : String) (hu : u ∉ P) :
    indegDone E (insert u P) k = indegDone E P k + outEdges E u k := by
  induction E with
  | nil => rfl
  | cons e E ih =>
    unfold indegDone outEdges at *
    rw [List.countP_cons, List.countP_cons, List.countP_cons, ih]
    by_cases ht : e.2 = k
    · by_cases hs : e.1 ∈ P
      · have hne : ¬ e.1 = u := fun h => hu (h ▸ hs)
        simp [ht, hs, hne, Finset.mem_insert]
        omega
      · by_cases hsu : e.1 = u
        · simp [ht, hs, hsu, hu]
          omega
        · simp [ht, hs, hsu]
    · simp [ht]

theorem indegDone_mono (E : List (String × String)) {P Q : Finset String}
    (h : P ⊆ Q) (k : String) : indegDone E P k ≤ indegDone E Q k := by
  apply countP_mono_of_imp
  intro e _ he
  simp only [Bool.and_eq_true, decide_eq_true_eq] at he ⊢
  exact ⟨he.1, h he.2⟩

/-- If the running in-degree of `k` is zero, every edge into `k` has its
source in `P`. -/
theorem sources_mem_of_needVal_zero (E : List (String × String)) (P : Finset String)
    (k : String) (h : needVal E P k = 0) :
    ∀ e ∈ E, e.2 = k → e.1 ∈ P := by
  have hle : E.countP (fun e => decide (e.2 = k))
      ≤ E.countP (fun e => decide (e.2 = k) && decide (e.1 ∈ P)) := by
    unfold needVal indegCount indegDone at h
    omega
  intro e he ht
  have := countP_saturated E
    (fun e => decide (e.2 = k) && decide (e.1 ∈ P))
    (fun e => decide (e.2 = k))
    (by intro x _ hx; simp only [Bool.and_eq_true] at hx; exact hx.1)
    hle e he (by simp [ht])
  simp only [Bool.and_eq_true, decide_eq_true_eq] at this
  exact this.2

theorem needVal_zero_of_sources_mem (E : List (String × String)) (P : Finset String)
    (k : String) (h : ∀ e ∈ E, e.2 = k → e.1 ∈ P) : needVal E P k = 0 := by
  unfold needVal indegCount indegDone
  have : E.countP (fun e => decide (e.2 = k) && decide (e.1 ∈ P))
      = E.countP (fun e => decide (e.2 = k)) := by
    apply countP_congr_mem
    intro e he
    by_cases ht : e.2 = k
    · simp [ht, h e he ht]
    · simp [ht]
  omega

/-- With `u ∉ P`, the edges from `u` into `k` are still uncounted, so the
running in-degree of `k` is at least their number. -/
theorem outEdges_le_needVal (E : List (String × String)) (P : Finset String)
    (u k : String) (hu : u ∉ P) :
    (outEdges E u k : Int) ≤ needVal E P k := by
  have := countP_disjoint_add_le E
    (fun e => decide (e.2 = k) && decide (e.1 ∈ P))
    (fun e => decide (e.1 = u) && decide (e.2 = k))
    (fun e => decide (e.2 = k))
    (by intro x _ hx; simp only [Bool.and_eq_true] at hx; exact hx.1)
    (by intro x _ hx; simp only [Bool.and_eq_true] at hx; exact hx.2)
    (by
      intro x _ hx
      rcases hx with ⟨h1, h2⟩
      simp only [Bool.and_eq_true, decide_eq_true_eq] at h1 h2
      exact hu (h2.1 ▸ h1.2))
  unfold needVal indegCount indegDone outEdges at *
  omega

theorem adjacencyOf_count (st : WState) (u k : String) :
    (adjacencyOf st u).count k = outEdges st.edges u k := by
  show ((st.edges.filter (fun e => decide (e.1 = u))).map Prod.snd).count k
      = outEdges st.edges u k
  generalize st.edges = E
  induction E with
  | nil => rfl
  | cons e E ih =>
    unfold outEdges at *
    rw [List.countP_cons]
    by_cases hs : e.1 = u
    · rw [List.filter_cons_of_pos (by simp [hs]), List.map_cons, List.count_cons, ih]
      by_cases ht : e.2 = k
      · simp [hs, ht]
      · simp [hs, ht]
    · rw [List.filter_cons_of_neg (by simp [hs]), ih]
      simp [hs]

theorem adjacencyOf_mem_keys (st : WState) (hwf : StWf st) (u : String) :
    ∀ n ∈ adjacencyOf st u, n ∈ keysA st.inDeg := by
  intro n hn
  unfold adjacencyOf at hn
  obtain ⟨e, he, rfl⟩ := List.mem_map.1 hn
  exact (hwf.edgeKeys e (List.mem_of_mem_filter he)).2

theorem mem_keysA_of_mem {α : Type} {l : List (String × α)} {k : String} {v : α}
    (h : (k, v) ∈ l) : k ∈ keysA l :=
  List.mem_map.2 ⟨(k, v), h, rfl⟩

theorem lookupA_of_mem_nodup {α : Type} {l : List (String × α)} {k : String} {v : α}
    (hnd : (keysA l).Nodup) (h : (k, v) ∈ l) : lookupA l k = some v := by
  induction l with
  | nil => simp at h
  | cons hd tl ih =>
    obtain ⟨k₀, v₀⟩ := hd
    simp only [keysA_cons, List.nodup_cons] at hnd
    rcases List.mem_cons.1 h with heq | hmem
    · cases heq
      simp [lookupA]
    · have hk : ¬ k₀ = k := by
        intro he
        subst he
        exact hnd.1 (mem_keysA_of_mem hmem)
      simp only [lookupA, if_neg hk]
      exact ih hnd.2 hmem

theorem zeroKeys_sublist {α : Type} (l : List (String × α)) (p : String × α → Bool) :
    ((l.filter p).map Prod.fst).Sublist (keysA l) :=
  List.Sublist.map Prod.fst (List.filter_sublist l)

theorem mem_zeroKeys_iff (temp : List (String × Int))
    (hnd : (keysA temp).Nodup) (x : String) :
    x ∈ (temp.filter (fun p => decide (p.2 = 0))).map Prod.fst
      ↔ lookupA temp x = some 0 := by
  constructor
  · intro hx
    obtain ⟨⟨k, v⟩, hkv, rfl⟩ := List.mem_map.1 hx
    have hv : v = 0 := by
      have := List.of_mem_filter hkv
      simpa using this
    exact hv ▸ lookupA_of_mem_nodup hnd (List.mem_of_mem_filter hkv)
  · intro hx
    exact List.mem_map.2 ⟨(x, 0), List.mem_filter.2 ⟨lookupA_mem hx, by simp⟩, rfl⟩

theorem keysA_setA_mem_iff {α : Type} (l : List (String × α)) (k : String) (v : α)
    (x : String) : x ∈ keysA (setA l k v) ↔ x ∈ keysA l ∨ x = k := by
  by_cases h : lookupA l k = none
  · rw [setA_of_not_mem l v h, keysA_append]
    simp [keysA]
  · have hk : k ∈ keysA l := by
      by_contra hc
      exact h ((lookupA_eq_none_iff l k).2 hc)
    rw [keysA_setA_of_mem l v hk]
    constructor
    · exact Or.inl
    · rintro (hx | rfl)
      · exact hx
      · exact hk

theorem keysA_setA_nodup {α : Type} (l : List (String × α)) (k : String) (v : α)
    (hnd : (keysA l).Nodup) : (keysA (setA l k v)).Nodup := by
  by_cases h : lookupA l k = none
  · rw [setA_of_not_mem l v h, keysA_append]
    have hk := (lookupA_eq_none_iff l k).1 h
    refine List.Nodup.append hnd (List.nodup_singleton k) ?_
    intro x hx hx2
    simp only [keysA_cons, keysA_nil, List.mem_singleton] at hx2
    subst hx2
    exact hk hx
  · have hk : k ∈ keysA l := by
      by_contra hc
      exact h ((lookupA_eq_none_iff l k).2 hc)
    rw [keysA_setA_of_mem l v hk]
    exact hnd

theorem keysA_append_singleton_nodup {α : Type} (l : List (String × α)) (k : String)
    (v : α) (hnd : (keysA l).Nodup) (hk : k ∉ keysA l) :
    (keysA (l ++ [(k, v)])).Nodup := by
  rw [keysA_append]
  refine List.Nodup.append hnd (List.nodup_singleton k) ?_
  intro x hx hx2
  simp only [keysA_cons, keysA_nil, List.mem_singleton] at hx2
  subst hx2
  exact hk hx

theorem indegCount_eq_zero_of_not_mem (st : WState) (hwf : StWf st) (k : String)
    (hk : k ∉ keysA st.inDeg) : indegCount st.edges k = 0 := by
  rw [indegCount, List.countP_eq_zero]
  intro e he
  simp only [decide_eq_true_eq]
  intro ht
  exact hk (ht ▸ (hwf.edgeKeys e he).2)

theorem indegCount_append (E : List (String × String)) (a b k : String) :
    indegCount (E ++ [(a, b)]) k = indegCount E k + (if b = k then 1 else 0) := by
  rw [indegCount, indegCount, List.countP_append]
  simp [List.countP_cons]

theorem stWf_empty : StWf emptyW := by
  constructor <;> simp [emptyW, lookupA, keysA]

theorem stWf_addNode (st : WState) (s : NodeSpec) (hwf : StWf st) :
    StWf (addNode st s) := by
  have hkeys2 : ∀ x ∈ keysA st.inDeg, x ∈ keysA (addNode st s).inDeg := by
    intro x hx
    unfold addNode
    by_cases hc : containsA st.inDeg s.nodeId = true
    · simpa [hc] using hx
    · rw [if_neg hc, keysA_append]
      exact List.mem_append_left _ hx
  have hid : s.nodeId ∈ keysA (addNode st s).inDeg := by
    unfold addNode
    by_cases hc : containsA st.inDeg s.nodeId = true
    · simpa [hc] using (containsA_iff st.inDeg s.nodeId).1 hc
    · rw [if_neg hc, keysA_append]
      simp [keysA]
  have hnodeKeys : ∀ x, x ∈ keysA (addNode st s).nodes ↔ x ∈ keysA st.nodes ∨ x = s.nodeId := by
    intro x
    exact keysA_setA_mem_iff st.nodes s.nodeId (mkWNode s) x
  constructor
  · exact keysA_setA_nodup st.nodes s.nodeId (mkWNode s) hwf.nodesNodup
  · unfold addNode
    by_cases hc : containsA st.inDeg s.nodeId = true
    · simpa [hc] using hwf.degNodup
    · rw [if_neg hc]
      have hni : s.nodeId ∉ keysA st.inDeg := by
        by_contra hmem
        exact (by simpa [hc] using (containsA_iff st.inDeg s.nodeId).2 hmem)
      exact keysA_append_singleton_nodup st.inDeg s.nodeId 0 hwf.degNodup hni
  · intro k hk
    rcases (hnodeKeys k).1 hk with hold | rfl
    · exact hkeys2 k (hwf.nodesSub k hold)
    · exact hid
  · intro k v hv
    unfold addNode at hv
    by_cases hc : containsA st.inDeg s.nodeId = true
    · simp only [hc, if_true] at hv
      exact hwf.degVal k v hv
    · rw [if_neg hc, lookupA_append] at hv
      rcases h1 : lookupA st.inDeg k with _ | v₀
      · rw [h1] at hv
        simp only [lookupA] at hv
        by_cases hk : s.nodeId = k
        · subst hk
          simp at hv
          subst hv
          have : indegCount st.edges s.nodeId = 0 :=
            indegCount_eq_zero_of_not_mem st hwf s.nodeId
              ((lookupA_eq_none_iff _ _).1 h1)
          simp [addNode, this]
        · simp [hk] at hv
      · rw [h1] at hv
        simp at hv
        subst hv
        exact hwf.degVal k v₀ h1
  · intro e he
    exact ⟨hkeys2 e.1 (hwf.edgeKeys e he).1, hkeys2 e.2 (hwf.edgeKeys e he).2⟩
  · intro k hk
    unfold addNode at hk
    by_cases hc : containsA st.inDeg s.nodeId = true
    · simp only [hc, if_true] at hk
      rcases hwf.keyOrigin k hk with hn | he
      · exact Or.inl ((hnodeKeys k).2 (Or.inl hn))
      · exact Or.inr he
    · rw [if_neg hc, keysA_append] at hk
      rcases List.mem_append.1 hk with hold | hnew
      · rcases hwf.keyOrigin k hold with hn | he
        · exact Or.inl ((hnodeKeys k).2 (Or.inl hn))
        · exact Or.inr he
      · simp [keysA] at hnew
        exact Or.inl ((hnodeKeys k).2 (Or.inr hnew))
  · intro id n hn
    unfold addNode at hn
    by_cases hk : s.nodeId = id
    · subst hk
      rw [lookupA_setA_self] at hn
      cases hn
      exact ⟨rfl, rfl, rfl, rfl⟩
    · rw [lookupA_setA_ne st.nodes (mkWNode s) hk] at hn
      exact hwf.nodesFresh id n hn

theorem stWf_addEdge (st : WState) (a b : String) (hwf : StWf st) :
    StWf (addEdge st a b) := by
  set inDeg1 := (match lookupA st.inDeg b with
    | some v => setA st.inDeg b (v + 1)
    | none => st.inDeg ++ [(b, 1)]) with hdef1
  have hkeys1 : ∀ x, x ∈ keysA inDeg1 ↔ x ∈ keysA st.inDeg ∨ x = b := by
    intro x
    rcases hb : lookupA st.inDeg b with _ | v
    · rw [hdef1, hb]
      simp only [keysA_append]
      simp [keysA]
    · rw [hdef1, hb]
      exact keysA_setA_mem_iff st.inDeg b (v + 1) x
  have hnd1 : (keysA inDeg1).Nodup := by
    rcases hb : lookupA st.inDeg b with _ | v
    · rw [hdef1, hb]
      exact keysA_append_singleton_nodup st.inDeg b 1 hwf.degNodup
        ((lookupA_eq_none_iff _ _).1 hb)
    · rw [hdef1, hb]
      exact keysA_setA_nodup st.inDeg b (v + 1) hwf.degNodup
  have hval1b : lookupA inDeg1 b = some ((indegCount st.edges b : Int) + 1) := by
    rcases hb : lookupA st.inDeg b with _ | v
    · rw [hdef1, hb, lookupA_append, hb]
      have : indegCount st.edges b = 0 :=
        indegCount_eq_zero_of_not_mem st hwf b ((lookupA_eq_none_iff _ _).1 hb)
      simp [lookupA, this]
    · rw [hdef1, hb, lookupA_setA_self]
      rw [hwf.degVal b v hb]
  have hval1ne : ∀ k, ¬ b = k → lookupA inDeg1 k = lookupA st.inDeg k := by
    intro k hk
    rcases hb : lookupA st.inDeg b with _ | v
    · rw [hdef1, hb, lookupA_append]
      rcases h1 : lookupA st.inDeg k with _ | w
      · simp [lookupA, hk]
      · simp
    · rw [hdef1, hb]
      exact lookupA_setA_ne st.inDeg (v + 1) hk
  set inDeg2 := if containsA inDeg1 a then inDeg1 else inDeg1 ++ [(a, 0)] with hdef2
  have hkeys2 : ∀ x, x ∈ keysA inDeg2 ↔ x ∈ keysA inDeg1 ∨ x = a := by
    intro x
    by_cases hc : containsA inDeg1 a = true
    · rw [hdef2, if_pos hc]
      constructor
      · exact Or.inl
      · rintro (hx | hx2)
        · exact hx
        · subst hx2
          exact (containsA_iff inDeg1 x).1 hc
    · rw [hdef2, if_neg hc, keysA_append]
      simp [keysA]
  have hnd2 : (keysA inDeg2).Nodup := by
    by_cases hc : containsA inDeg1 a = true
    · rw [hdef2, if_pos hc]
      exact hnd1
    · rw [hdef2, if_neg hc]
      have hna : a ∉ keysA inDeg1 := by
        intro hmem
        exact (by simpa [hc] using (containsA_iff inDeg1 a).2 hmem)
      exact keysA_append_singleton_nodup inDeg1 a 0 hnd1 hna
  have hval2 : ∀ k, k ∈ keysA inDeg1 → lookupA inDeg2 k = lookupA inDeg1 k := by
    intro k hk
    by_cases hc : containsA inDeg1 a = true
    · rw [hdef2, if_pos hc]
    · rw [hdef2, if_neg hc, lookupA_append]
      rcases h1 : lookupA inDeg1 k with _ | w
      · exact absurd hk ((lookupA_eq_none_iff _ _).1 h1)
      · simp
  have haK2 : a ∈ keysA inDeg2 := by
    by_cases hc : containsA inDeg1 a = true
    · rw [hdef2, if_pos hc]
      exact (containsA_iff inDeg1 a).1 hc
    · rw [hdef2, if_neg hc, keysA_append]
      simp [keysA]
  have hbK2 : b ∈ keysA inDeg2 := (hkeys2 b).2 (Or.inl ((hkeys1 b).2 (Or.inr rfl)))
  have hE : (addEdge st a b).edges = st.edges ++ [(a, b)] := rfl
  have hD : (addEdge st a b).inDeg = inDeg2 := rfl
  have hN : (addEdge st a b).nodes = st.nodes := rfl
  constructor
  · rw [hN]
    exact hwf.nodesNodup
  · rw [hD]
    exact hnd2
  · intro k hk
    rw [hN] at hk
    rw [hD]
    exact (hkeys2 k).2 (Or.inl ((hkeys1 k).2 (Or.inl (hwf.nodesSub k hk))))
  · intro k v hv
    rw [hD] at hv
    rw [hE, indegCount_append]
    by_cases hkb : b = k
    · subst hkb
      rw [hval2 b ((hkeys1 b).2 (Or.inr rfl)), hval1b] at hv
      cases hv
      simp
    · by_cases hk1 : k ∈ keysA inDeg1
      · rw [hval2 k hk1, hval1ne k hkb] at hv
        rw [hwf.degVal k v hv]
        simp [hkb]
      · by_cases hc : containsA inDeg1 a = true
        · rw [hdef2, if_pos hc] at hv
          exact absurd (mem_keysA_of_mem (lookupA_mem hv)) hk1
        · rw [hdef2, if_neg hc, lookupA_append] at hv
          rcases h1 : lookupA inDeg1 k with _ | w
          · rw [h1] at hv
            simp only [lookupA] at hv
            by_cases hka : a = k
            · subst hka
              simp at hv
              subst hv
              have h0 : indegCount st.edges a = 0 := by
                apply indegCount_eq_zero_of_not_mem st hwf
                intro hmem
                exact hk1 ((hkeys1 a).2 (Or.inl hmem))
              simp [h0, hkb]
            · simp [hka] at hv
          · exact absurd (mem_keysA_of_mem (lookupA_mem h1)) hk1
  · intro e he
    rw [hE] at he
    rw [hD]
    rcases List.mem_append.1 he with hold | hnew
    · refine ⟨?_, ?_⟩
      · exact (hkeys2 e.1).2 (Or.inl ((hkeys1 e.1).2 (Or.inl (hwf.edgeKeys e hold).1)))
      · exact (hkeys2 e.2).2 (Or.inl ((hkeys1 e.2).2 (Or.inl (hwf.edgeKeys e hold).2)))
    · simp at hnew
      subst hnew
      exact ⟨haK2, hbK2⟩
  · intro k hk
    rw [hD] at hk
    rw [hN, hE]
    rcases (hkeys2 k).1 hk with hk1 | rfl
    · rcases (hkeys1 k).1 hk1 with hk0 | rfl
      · rcases hwf.keyOrigin k hk0 with hn | ⟨e, he, hor⟩
        · exact Or.inl hn
        · exact Or.inr ⟨e, List.mem_append_left _ he, hor⟩
      · exact Or.inr ⟨(a, k), List.mem_append_right _ (by simp), Or.inr rfl⟩
    · exact Or.inr ⟨(k, b), List.mem_append_right _ (by simp), Or.inl rfl⟩
  · intro id n hn
    rw [hN] at hn
    exact hwf.nodesFresh id n hn

theorem stWf_builtFrom (ops : List WOp) : StWf (builtFrom ops) := by
  suffices h : ∀ st, StWf st → StWf (ops.foldl applyWOp st) by
    exact h emptyW stWf_empty
  induction ops with
  | nil => intro st hst; exact hst
  | cons op ops ih =>
    intro st hst
    rw [List.foldl_cons]
    apply ih
    cases op with
    | node s => exact stWf_addNode st s hst
    | edge a b => exact stWf_addEdge st a b hst

theorem edgePath_cons {E : List (String × String)} {a b c : String}
    (hab : (a, b) ∈ E) (h : EdgePath E b c) : EdgePath E a c := by
  induction h with
  | single hbc => exact EdgePath.tail (EdgePath.single hab) hbc
  | tail _ hdc ih => exact EdgePath.tail ih hdc

theorem edgePath_last {E : List (String × String)} {a c : String}
    (h : EdgePath E a c) : ∃ b, (b, c) ∈ E ∧ (b = a ∨ EdgePath E a b) := by
  cases h with
  | single hac => exact ⟨a, hac, Or.inl rfl⟩
  | tail hab hbc => exact ⟨_, hbc, Or.inr hab⟩

theorem tainted_of_cycle {E : List (String × String)} {v : String}
    (h : EdgePath E v v) : Tainted E v :=
  ⟨v, h, Or.inl rfl⟩

theorem tainted_pred {E : List (String × String)} {k : String}
    (h : Tainted E k) : ∃ e ∈ E, e.2 = k ∧ Tainted E e.1 := by
  obtain ⟨u, hcyc, hor⟩ := h
  rcases hor with rfl | hpath
  · obtain ⟨b, hbk, hor'⟩ := edgePath_last hcyc
    refine ⟨(b, u), hbk, rfl, u, hcyc, ?_⟩
    rcases hor' with rfl | hp
    · exact Or.inl rfl
    · exact Or.inr hp
  · obtain ⟨b, hbk, hor'⟩ := edgePath_last hpath
    refine ⟨(b, k), hbk, rfl, u, hcyc, ?_⟩
    rcases hor' with rfl | hp
    · exact Or.inl rfl
    · exact Or.inr hp

/-- A nonempty finite set in which every element has an in-`S` predecessor
along `E` yields a cycle (pigeonhole on an iterated predecessor chain). -/
theorem exists_cycle_of_preds (E : List (String × String)) (S : Finset String)
    (hS : S.Nonempty) (hpred : ∀ k ∈ S, ∃ s, s ∈ S ∧ (s, k) ∈ E) :
    ∃ v, EdgePath E v v := by
  classical
  have hstep : ∀ p : {x // x ∈ S}, ∃ q : {x // x ∈ S}, (q.1, p.1) ∈ E := by
    intro p
    obtain ⟨s, hs, he⟩ := hpred p.1 p.2
    exact ⟨⟨s, hs⟩, he⟩
  choose f hf using hstep
  obtain ⟨k₀, hk₀⟩ := hS
  let g : Nat → {x // x ∈ S} := fun n => Nat.rec ⟨k₀, hk₀⟩ (fun _ p => f p) n
  have hg : ∀ n, ((g (n + 1)).1, (g n).1) ∈ E := fun n => hf (g n)
  have hpath : ∀ i j, i < j → EdgePath E (g j).1 (g i).1 := by
    intro i j hij
    induction j with
    | zero => omega
    | succ j ih =>
      rcases Nat.lt_succ_iff_lt_or_eq.1 hij with h | h
      · exact edgePath_cons (hg j) (ih h)
      · subst h
        exact EdgePath.single (hg i)
  have hcard : S.card < (Finset.range (S.card + 1)).card := by simp
  have hmap : ∀ n ∈ Finset.range (S.card + 1), (g n).1 ∈ S := fun n _ => (g n).2
  obtain ⟨i, _, j, _, hne, heq⟩ :=
    Finset.exists_ne_map_eq_of_card_lt_of_maps_to hcard hmap
  rcases lt_or_gt_of_ne hne with h | h
  · exact ⟨(g i).1, heq ▸ hpath i j h⟩
  · exact ⟨(g j).1, heq ▸ hpath j i h⟩

theorem count_cons_eq (a b : String) (l : List String) :
    (b :: l).count a = l.count a + (if b = a then 1 else 0) := by
  by_cases h : b = a <;> simp [List.count_cons, h]

/-- Specification of the neighbor-decrement loop inside `validate_dag`'s
Kahn iteration: when every neighbor is a key whose current value is at least
its multiplicity in the neighbor list, the loop subtracts exactly the
multiplicities and enqueues exactly the keys whose value reaches `0`. -/
theorem kahnNeighbors_run (ns : List String) :
    ∀ (temp : List (String × Int)) (queue : List String),
      (∀ n ∈ ns, ∃ v, lookupA temp n = some v ∧ ((ns.count n : Int) ≤ v)) →
      keysA (kahnNeighbors temp queue ns).1 = keysA temp
      ∧ (∀ k v, lookupA temp k = some v →
          lookupA (kahnNeighbors temp queue ns).1 k = some (v - (ns.count k : Int)))
      ∧ ∃ ext, (kahnNeighbors temp queue ns).2 = queue ++ ext
          ∧ ext.Nodup
          ∧ (∀ x, x ∈ ext ↔ x ∈ ns ∧ lookupA temp x = some ((ns.count x : Int))) := by
  induction ns with
  | nil =>
    intro temp queue _
    refine ⟨rfl, ?_, [], by simp [kahnNeighbors], by simp, by simp⟩
    intro k v hv
    simpa [kahnNeighbors] using hv
  | cons n rest ih =>
    intro temp queue hyp
    obtain ⟨v, hv, hcnt⟩ := hyp n (List.mem_cons_self n rest)
    have hcount_n : ((n :: rest).count n : Int) = (rest.count n : Int) + 1 := by
      rw [count_cons_eq]
      simp
    have hstep : kahnNeighbors temp queue (n :: rest)
        = kahnNeighbors (setA temp n (v - 1))
            (if v - 1 = 0 then queue ++ [n] else queue) rest := by
      simp only [kahnNeighbors, decTarget, hv]
    have hktmp : keysA (setA temp n (v - 1)) = keysA temp :=
      keysA_setA_of_mem temp _ (mem_keysA_of_mem (lookupA_mem hv))
    have hlook' : ∀ k, lookupA (setA temp n (v - 1)) k
        = if n = k then some (v - 1) else lookupA temp k := by
      intro k
      by_cases hk : n = k
      · subst hk
        simp [lookupA_setA_self]
      · simp [hk, lookupA_setA_ne temp (v - 1) hk]
    have hyp' : ∀ m ∈ rest, ∃ w, lookupA (setA temp n (v - 1)) m = some w
        ∧ ((rest.count m : Int) ≤ w) := by
      intro m hm
      by_cases hmn : n = m
      · subst hmn
        refine ⟨v - 1, by simp [hlook'], ?_⟩
        omega
      · obtain ⟨w, hw, hcw⟩ := hyp m (List.mem_cons_of_mem n hm)
        refine ⟨w, by simp [hlook', hmn, hw], ?_⟩
        have : (rest.count m : Int) ≤ ((n :: rest).count m : Int) := by
          rw [count_cons_eq]
          simp [hmn]
        omega
    obtain ⟨hkeys', hvals', ext', hq', hnd', hmem'⟩ :=
      ih (setA temp n (v - 1)) (if v - 1 = 0 then queue ++ [n] else queue) hyp'
    rw [hstep]
    refine ⟨hkeys'.trans hktmp, ?_, ?_⟩
    · intro k w hw
      have hw' : lookupA (setA temp n (v - 1)) k
          = some (w - (if n = k then 1 else 0)) := by
        rw [hlook']
        by_cases hk : n = k
        · subst hk
          rw [hv] at hw
          cases hw
          simp
        · simp [hk, hw]
      have := hvals' k _ hw'
      rw [this]
      congr 1
      rw [count_cons_eq]
      by_cases hk : n = k <;> simp [hk] <;> omega
    · have hcount_ne : ∀ x, ¬ n = x → ((n :: rest).count x : Int) = (rest.count x : Int) := by
        intro x hxn
        rw [count_cons_eq]
        simp [hxn]
      by_cases hz : v - 1 = 0
      · rw [if_pos hz] at hq'
        rw [if_pos hz]
        have hn' : n ∉ ext' := by
          intro hmem
          obtain ⟨hrest, hval⟩ := (hmem' n).1 hmem
          rw [hlook', if_pos rfl] at hval
          have hv1 : v - 1 = (rest.count n : Int) := Option.some.inj hval
          have hc0 : rest.count n = 0 := by omega
          exact (List.count_eq_zero.1 hc0) hrest
        refine ⟨n :: ext', ?_, List.nodup_cons.2 ⟨hn', hnd'⟩, ?_⟩
        · rw [hq']
          simp
        · intro x
          constructor
          · intro hx
            rcases List.mem_cons.1 hx with hx0 | hx'
            · subst hx0
              refine ⟨List.mem_cons_self x rest, ?_⟩
              have hc0 : rest.count x = 0 := by
                by_cases hxr : x ∈ rest
                · obtain ⟨w, hw, hcw⟩ := hyp' x hxr
                  rw [hlook', if_pos rfl] at hw
                  have hwv : v - 1 = w := Option.some.inj hw
                  omega
                · exact List.count_eq_zero.2 hxr
              have hcv : ((x :: rest).count x : Int) = v := by
                rw [count_cons_eq]
                simp [hc0]
                omega
              rw [hv, hcv]
            · obtain ⟨hr, hval⟩ := (hmem' x).1 hx'
              have hxn : ¬ n = x := by
                intro he
                subst he
                exact hn' hx'
              rw [hlook', if_neg hxn] at hval
              refine ⟨List.mem_cons_of_mem n hr, ?_⟩
              rw [hval, hcount_ne x hxn]
          · rintro ⟨hns, hval⟩
            by_cases hx : x = n
            · subst hx
              exact List.mem_cons_self x ext'
            · have hxn : ¬ n = x := fun h => hx h.symm
              have hr : x ∈ rest := by
                rcases List.mem_cons.1 hns with h | h
                · exact absurd h hx
                · exact h
              apply List.mem_cons_of_mem
              apply (hmem' x).2
              refine ⟨hr, ?_⟩
              rw [hlook', if_neg hxn, hval, hcount_ne x hxn]
      · rw [if_neg hz] at hq'
        rw [if_neg hz]
        refine ⟨ext', hq', hnd', ?_⟩
        intro x
        rw [hmem' x]
        by_cases hx : x = n
        · subst hx
          rw [hlook', if_pos rfl]
          constructor
          · rintro ⟨hr, hval⟩
            have hv1 : v - 1 = (rest.count x : Int) := Option.some.inj hval
            refine ⟨List.mem_cons_self x rest, ?_⟩
            have hcv : ((x :: rest).count x : Int) = v := by
              rw [count_cons_eq]
              simp
              omega
            rw [hv, hcv]
          · rintro ⟨hns, hval⟩
            have hveq : v = ((x :: rest).count x : Int) := Option.some.inj (hv.symm.trans hval)
            have hcc : ((x :: rest).count x : Int) = (rest.count x : Int) + 1 := by
              rw [count_cons_eq]
              simp
            have hr : x ∈ rest := by
              by_contra hnr
              have hc0 : rest.count x = 0 := List.count_eq_zero.2 hnr
              omega
            refine ⟨hr, ?_⟩
            have : v - 1 = (rest.count x : Int) := by omega
            rw [this]
        · have hxn : ¬ n = x := fun h => hx h.symm
          rw [hlook', if_neg hxn]
          constructor
          · rintro ⟨hr, hval⟩
            refine ⟨List.mem_cons_of_mem n hr, ?_⟩
            rw [hval, hcount_ne x hxn]
          · rintro ⟨hns, hval⟩
            have hr : x ∈ rest := by
              rcases List.mem_cons.1 hns with h | h
              · exact absurd h hx
              · exact h
            refine ⟨hr, ?_⟩
            rw [hval, hcount_ne x hxn]

theorem lookupA_isSome_of_mem {α : Type} {l : List (String × α)} {k : String}
    (h : k ∈ keysA l) : ∃ v, lookupA l k = some v := by
  have := (lookupA_isSome_iff l k).2 h
  rcases hv : lookupA l k with _ | v
  · rw [hv] at this
    cases this
  · exact ⟨v, rfl⟩

theorem indegDone_empty (E : List (String × String)) (k : String) :
    indegDone E ∅ k = 0 := by
  rw [indegDone, List.countP_eq_zero]
  intro e _
  simp

theorem exists_unprocessed_edge (E : List (String × String)) (P : Finset String)
    (k : String) (h : needVal E P k ≠ 0) :
    ∃ e ∈ E, e.2 = k ∧ e.1 ∉ P := by
  by_contra hc
  push_neg at hc
  exact h (needVal_zero_of_sources_mem E P k hc)

theorem indegCount_pos_of_edge {E : List (String × String)} {e : String × String}
    (he : e ∈ E) (ht : e.2 = k) : 0 < indegCount E k := by
  rw [indegCount, List.countP_pos]
  exact ⟨e, he, by simp [ht]⟩

theorem mem_adjacencyOf_iff (st : WState) (u k : String) :
    k ∈ adjacencyOf st u ↔ 0 < outEdges st.edges u k := by
  rw [← adjacencyOf_count]
  exact List.count_pos_iff_mem.symm

theorem degSum_setA (temp : List (String × Int)) (k : String) (v w : Int)
    (h : lookupA temp k = some v) :
    degSum (setA temp k w) + v.toNat = degSum temp + w.toNat := by
  induction temp with
  | nil => simp [lookupA] at h
  | cons hd tl ih =>
    obtain ⟨k₀, v₀⟩ := hd
    by_cases hk : k₀ = k
    · subst hk
      simp only [lookupA, if_pos rfl] at h
      cases h
      simp [setA, degSum]
      omega
    · simp only [lookupA, if_neg hk] at h
      simp only [setA, if_neg hk]
      have := ih h
      simp [degSum] at this ⊢
      omega

theorem degSum_append (l1 l2 : List (String × Int)) :
    degSum (l1 ++ l2) = degSum l1 + degSum l2 := by
  simp [degSum]

theorem kahnNeighbors_measure (ns : List String) :
    ∀ (temp : List (String × Int)) (queue : List String),
      kahnMeasure (kahnNeighbors temp queue ns).1 (kahnNeighbors temp queue ns).2
        ≤ kahnMeasure temp queue := by
  induction ns with
  | nil =>
    intro temp queue
    simp [kahnNeighbors]
  | cons n rest ih =>
    intro temp queue
    rcases hv : lookupA temp n with _ | v
    · have hstep : kahnNeighbors temp queue (n :: rest)
          = kahnNeighbors (temp ++ [(n, -1)]) queue rest := by
        simp [kahnNeighbors, decTarget, hv]
      rw [hstep]
      refine le_trans (ih (temp ++ [(n, -1)]) queue) ?_
      unfold kahnMeasure
      rw [degSum_append]
      simp [degSum]
    · have hstep : kahnNeighbors temp queue (n :: rest)
          = kahnNeighbors (setA temp n (v - 1))
              (if v - 1 = 0 then queue ++ [n] else queue) rest := by
        simp only [kahnNeighbors, decTarget, hv]
      rw [hstep]
      refine le_trans (ih _ _) ?_
      unfold kahnMeasure
      have hds := degSum_setA temp n v (v - 1) hv
      by_cases hz : v - 1 = 0
      · rw [if_pos hz]
        simp only [List.length_append, List.length_cons, List.length_nil]
        omega
      · rw [if_neg hz]
        omega

theorem kahnInv_step (st : WState) (hwf : StWf st) (temp : List (String × Int))
    (current : String) (rest : List String) (P : Finset String)
    (inv : KahnInv st temp (current :: rest) P) :
    KahnInv st (kahnNeighbors temp rest (adjacencyOf st current)).1
      (kahnNeighbors temp rest (adjacencyOf st current)).2 (insert current P) := by
  obtain ⟨hcK, hcP, hc0⟩ := inv.qMem current (List.mem_cons_self current rest)
  have huc : ¬ Tainted st.edges current :=
    inv.qUntainted current (List.mem_cons_self current rest)
  set ns := adjacencyOf st current with hns
  have hcount_out : ∀ k, (ns.count k : Int) = (outEdges st.edges current k : Int) := by
    intro k
    rw [hns, adjacencyOf_count]
  have hyp : ∀ n ∈ ns, ∃ v, lookupA temp n = some v ∧ ((ns.count n : Int) ≤ v) := by
    intro n hn
    have hnK : n ∈ keysA st.inDeg := adjacencyOf_mem_keys st hwf current n hn
    refine ⟨needVal st.edges P n, inv.valAt n hnK, ?_⟩
    rw [hcount_out]
    exact outEdges_le_needVal st.edges P current n hcP
  obtain ⟨hkeys, hvals, ext, hq, hnd, hmem⟩ := kahnNeighbors_run ns temp rest hyp
  have hneedins : ∀ k, needVal st.edges (insert current P) k
      = needVal st.edges P k - (outEdges st.edges current k : Int) := by
    intro k
    unfold needVal
    rw [indegDone_insert st.edges P current k hcP]
    push_cast
    ring
  have hvalAt' : ∀ k ∈ keysA st.inDeg,
      lookupA (kahnNeighbors temp rest ns).1 k
        = some (needVal st.edges (insert current P) k) := by
    intro k hk
    have := hvals k _ (inv.valAt k hk)
    rw [this, hneedins, hcount_out]
  have hextchar : ∀ x, x ∈ ext ↔ x ∈ ns
      ∧ needVal st.edges P x = (outEdges st.edges current x : Int) := by
    intro x
    rw [hmem x]
    constructor
    · rintro ⟨hxns, hval⟩
      have hxK : x ∈ keysA st.inDeg := adjacencyOf_mem_keys st hwf current x hxns
      have := inv.valAt x hxK
      rw [this] at hval
      have := Option.some.inj hval
      refine ⟨hxns, ?_⟩
      rw [this, ← hcount_out]
    · rintro ⟨hxns, hval⟩
      have hxK : x ∈ keysA st.inDeg := adjacencyOf_mem_keys st hwf current x hxns
      refine ⟨hxns, ?_⟩
      rw [inv.valAt x hxK, hval, hcount_out]
  have hrestNodup : rest.Nodup := (List.nodup_cons.1 inv.qNodup).2
  have hcnr : current ∉ rest := (List.nodup_cons.1 inv.qNodup).1
  have hextfacts : ∀ x ∈ ext, x ∈ keysA st.inDeg ∧ x ∉ insert current P
      ∧ needVal st.edges (insert current P) x = 0 := by
    intro x hx
    obtain ⟨hxns, hval⟩ := (hextchar x).1 hx
    have hxK : x ∈ keysA st.inDeg := adjacencyOf_mem_keys st hwf current x hxns
    have hout1 : 0 < outEdges st.edges current x := (mem_adjacencyOf_iff st current x).1 hxns
    have hxc : x ≠ current := by
      intro he
      subst he
      rw [hc0] at hval
      omega
    have hxP : x ∉ P := by
      intro hxP
      have h0 : needVal st.edges P x = 0 :=
        needVal_zero_of_sources_mem st.edges P x (inv.pClosed x hxP).2
      rw [h0] at hval
      omega
    refine ⟨hxK, ?_, ?_⟩
    · simp [Finset.mem_insert, hxc, hxP]
    · rw [hneedins, hval]
      ring
  have hdisj : ∀ x ∈ rest, x ∉ ext := by
    intro x hxr hxe
    obtain ⟨hxns, hval⟩ := (hextchar x).1 hxe
    have h0 : needVal st.edges P x = 0 :=
      (inv.qMem x (List.mem_cons_of_mem current hxr)).2.2
    have hout1 : 0 < outEdges st.edges current x := (mem_adjacencyOf_iff st current x).1 hxns
    rw [h0] at hval
    omega
  constructor
  · exact hkeys.trans inv.keysEq
  · exact hvalAt'
  · rw [hq]
    refine List.Nodup.append hrestNodup hnd ?_
    intro x hxr hxe
    exact hdisj x hxr hxe
  · intro q hqmem
    rw [hq] at hqmem
    rcases List.mem_append.1 hqmem with hqr | hqe
    · obtain ⟨hK, hP, h0⟩ := inv.qMem q (List.mem_cons_of_mem current hqr)
      have hqc : q ≠ current := by
        intro he
        subst he
        exact hcnr hqr
      refine ⟨hK, ?_, ?_⟩
      · simp [Finset.mem_insert, hqc, hP]
      · rw [hneedins]
        have hle := outEdges_le_needVal st.edges P current q hcP
        have hnn : (0 : Int) ≤ (outEdges st.edges current q : Int) := by positivity
        omega
    · obtain ⟨hK, hP, h0⟩ := hextfacts q hqe
      exact ⟨hK, hP, h0⟩
  · intro p hp
    rcases Finset.mem_insert.1 hp with rfl | hpP
    · refine ⟨hcK, ?_⟩
      intro e he ht
      exact Finset.mem_insert_of_mem (sources_mem_of_needVal_zero st.edges P p hc0 e he ht)
    · obtain ⟨hK, hcl⟩ := inv.pClosed p hpP
      exact ⟨hK, fun e he ht => Finset.mem_insert_of_mem (hcl e he ht)⟩
  · intro k hK hkP hkq
    rw [hq] at hkq
    have hkrest : k ∉ rest := fun h => hkq (List.mem_append_left _ h)
    have hkext : k ∉ ext := fun h => hkq (List.mem_append_right _ h)
    have hkc : k ≠ current := fun he => hkP (he ▸ Finset.mem_insert_self current P)
    have hkPP : k ∉ P := fun h => hkP (Finset.mem_insert_of_mem h)
    have hold : needVal st.edges P k ≠ 0 := by
      apply inv.complete k hK hkPP
      intro hmem
      rcases List.mem_cons.1 hmem with he | hr
      · exact hkc he
      · exact hkrest hr
    rw [hneedins]
    intro hzero
    by_cases hout : 0 < outEdges st.edges current k
    · have hkns : k ∈ ns := (mem_adjacencyOf_iff st current k).2 hout
      have : needVal st.edges P k = (outEdges st.edges current k : Int) := by omega
      exact hkext ((hextchar k).2 ⟨hkns, this⟩)
    · have h0 : outEdges st.edges current k = 0 := by omega
      rw [h0] at hzero
      simp at hzero
      exact hold hzero
  · intro q hqmem
    rw [hq] at hqmem
    rcases List.mem_append.1 hqmem with hqr | hqe
    · exact inv.qUntainted q (List.mem_cons_of_mem current hqr)
    · intro htaint
      obtain ⟨hK, hP, h0⟩ := hextfacts q hqe
      obtain ⟨e, he, ht, hts⟩ := tainted_pred htaint
      have hsrc : e.1 ∈ insert current P :=
        sources_mem_of_needVal_zero st.edges (insert current P) q h0 e he ht
      rcases Finset.mem_insert.1 hsrc with he1 | he1
      · exact huc (he1 ▸ hts)
      · exact inv.pUntainted e.1 he1 hts
  · intro p hp
    rcases Finset.mem_insert.1 hp with rfl | hpP
    · exact huc
    · exact inv.pUntainted p hpP

theorem kahnInv_init (st : WState) (hwf : StWf st) :
    KahnInv st st.inDeg ((st.inDeg.filter (fun p => decide (p.2 = 0))).map Prod.fst) ∅ := by
  have hneed : ∀ k v, lookupA st.inDeg k = some v → needVal st.edges ∅ k = v := by
    intro k v hv
    rw [needVal, indegDone_empty, hwf.degVal k v hv]
    simp
  constructor
  · rfl
  · intro k hk
    obtain ⟨v, hv⟩ := lookupA_isSome_of_mem hk
    rw [hv, hneed k v hv]
  · exact List.Nodup.sublist (zeroKeys_sublist st.inDeg _) hwf.degNodup
  · intro q hq
    have hv := (mem_zeroKeys_iff st.inDeg hwf.degNodup q).1 hq
    refine ⟨mem_keysA_of_mem (lookupA_mem hv), by simp, ?_⟩
    rw [hneed q 0 hv]
  · intro p hp
    simp at hp
  · intro k hK _ hkq
    obtain ⟨v, hv⟩ := lookupA_isSome_of_mem hK
    rw [hneed k v hv]
    intro hzero
    subst hzero
    exact hkq ((mem_zeroKeys_iff st.inDeg hwf.degNodup k).2 hv)
  · intro q hq htaint
    have hv := (mem_zeroKeys_iff st.inDeg hwf.degNodup q).1 hq
    have h0 : needVal st.edges ∅ q = 0 := hneed q 0 hv
    obtain ⟨e, he, ht, _⟩ := tainted_pred htaint
    have hpos := indegCount_pos_of_edge he ht
    rw [needVal, indegDone_empty] at h0
    omega
  · intro p hp
    simp at hp

theorem kahnRun_drain (st : WState) (hwf : StWf st) :
    ∀ (fuel : Nat) (temp : List (String × Int)) (queue : List String) (P : Finset String),
      KahnInv st temp queue P → kahnMeasure temp queue ≤ fuel →
      ∃ Pf : Finset String,
        kahnRun (adjacencyOf st) fuel temp queue P.card = Pf.card
        ∧ P ⊆ Pf ∧ KahnFinal st Pf := by
  have hfinal : ∀ temp P, KahnInv st temp [] P → KahnFinal st P := by
    intro temp P inv
    constructor
    · intro p hp
      exact (inv.pClosed p hp).1
    · intro k hK hkP
      have hne := inv.complete k hK hkP (by simp)
      exact exists_unprocessed_edge st.edges P k hne
    · intro x htaint hxP
      exact inv.pUntainted x hxP htaint
  intro fuel
  induction fuel with
  | zero =>
    intro temp queue P inv hm
    have hq : queue = [] := by
      unfold kahnMeasure at hm
      have : queue.length = 0 := by omega
      exact List.length_eq_zero.1 this
    subst hq
    exact ⟨P, rfl, Finset.Subset.refl P, hfinal temp P inv⟩
  | succ fuel ih =>
    intro temp queue P inv hm
    cases queue with
    | nil => exact ⟨P, rfl, Finset.Subset.refl P, hfinal temp P inv⟩
    | cons current rest =>
      have hcP : current ∉ P := (inv.qMem current (List.mem_cons_self current rest)).2.1
      have hstep := kahnInv_step st hwf temp current rest P inv
      have hmeas : kahnMeasure (kahnNeighbors temp rest (adjacencyOf st current)).1
          (kahnNeighbors temp rest (adjacencyOf st current)).2 ≤ fuel := by
        have h1 := kahnNeighbors_measure (adjacencyOf st current) temp rest
        unfold kahnMeasure at h1 hm ⊢
        simp only [List.length_cons] at hm
        omega
      obtain ⟨Pf, hrun, hsub, hfin⟩ := ih _ _ (insert current P) hstep hmeas
      refine ⟨Pf, ?_, ?_, hfin⟩
      · have hcard : (insert current P).card = P.card + 1 :=
          Finset.card_insert_of_not_mem hcP
        rw [← hrun, hcard]
        rfl
      · exact Finset.Subset.trans (Finset.subset_insert current P) hsub
  termination_by fuel => fuel

theorem validateDag_run (st : WState) (hwf : StWf st) (hne : st.nodes ≠ []) :
    ∃ Pf : Finset String,
      ((validateDag st).1 = true ↔ Pf.card = st.nodes.length) ∧ KahnFinal st Pf := by
  have hinit := kahnInv_init st hwf
  have hempty : st.nodes.isEmpty = false := by
    cases h : st.nodes with
    | nil => exact absurd h hne
    | cons a l => rfl
  set q0 := (st.inDeg.filter (fun p => decide (p.2 = 0))).map Prod.fst with hq0
  obtain ⟨Pf, hrun, _, hfin⟩ := kahnRun_drain st hwf
    (kahnMeasure st.inDeg q0 + 1) st.inDeg q0 ∅ hinit (by omega)
  refine ⟨Pf, ?_, hfin⟩
  have hc0 : (∅ : Finset String).card = 0 := rfl
  unfold validateDag
  rw [hempty]
  simp only [Bool.false_eq_true, if_false]
  rw [hc0] at hrun
  rw [hrun]
  by_cases heq : Pf.card = st.nodes.length
  · simp [heq]
  · simp [heq]

/-- Under acyclicity, the final processed set covers every `in_degree`
key. -/
theorem kahnFinal_total (st : WState) (hwf : StWf st) (Pf : Finset String)
    (hfin : KahnFinal st Pf) (hacyc : Acyclic st.edges) :
    ∀ k ∈ keysA st.inDeg, k ∈ Pf := by
  by_contra hc
  push_neg at hc
  obtain ⟨k₀, hk₀, hk₀'⟩ := hc
  set S : Finset String := (keysA st.inDeg).toFinset \ Pf with hS
  have hSne : S.Nonempty := ⟨k₀, by simp [hS, List.mem_toFinset.2 hk₀, hk₀']⟩
  have hpred : ∀ k ∈ S, ∃ s, s ∈ S ∧ (s, k) ∈ st.edges := by
    intro k hk
    rw [hS, Finset.mem_sdiff, List.mem_toFinset] at hk
    obtain ⟨e, he, ht, hs⟩ := hfin.blocked k hk.1 hk.2
    have hsK : e.1 ∈ keysA st.inDeg := (hwf.edgeKeys e he).1
    refine ⟨e.1, ?_, ?_⟩
    · rw [hS, Finset.mem_sdiff, List.mem_toFinset]
      exact ⟨hsK, hs⟩
    · have : e = (e.1, k) := by
        rw [← ht]
      rw [← this]
      exact he
  obtain ⟨v, hv⟩ := exists_cycle_of_preds st.edges S hSne hpred
  exact hacyc v hv

theorem cycle_node_mem_keys (st : WState) (hwf : StWf st) {v : String}
    (h : EdgePath st.edges v v) : v ∈ keysA st.inDeg := by
  obtain ⟨b, hbv, _⟩ := edgePath_last h
  exact (hwf.edgeKeys (b, v) hbv).2

theorem nodes_length_eq_keys (st : WState) : (keysA st.nodes).length = st.nodes.length := by
  simp [keysA]

/-- Claim C3 as amended.  For every graph built by `add_node`/`add_edge`:
the empty graph is invalid with the "no nodes" reason; when every edge
references present nodes, `validate_dag` accepts exactly the nonempty
acyclic graphs; and when the graph is acyclic, `validate_dag` accepts
exactly the nonempty graphs whose edges all reference present nodes.  (The
two sides cannot be combined unconditionally: a graph that both contains a
cycle and has edges to absent nodes can be accepted — see the
counterexample.) -/
theorem claim_C3 (ops : List WOp) :
    ((builtFrom ops).nodes = [] →
        validateDag (builtFrom ops) = (false, some ("Workflow has no nodes")))
    ∧ (EdgeClosed (builtFrom ops) →
        ((validateDag (builtFrom ops)).1 = true
          ↔ (builtFrom ops).nodes ≠ [] ∧ Acyclic (builtFrom ops).edges))
    ∧ (Acyclic (builtFrom ops).edges →
        ((validateDag (builtFrom ops)).1 = true
          ↔ (builtFrom ops).nodes ≠ [] ∧ EdgeClosed (builtFrom ops))) := by
  set st := builtFrom ops with hst
  have hwf : StWf st := stWf_builtFrom ops
  have hempty_case : st.nodes = [] →
      validateDag st = (false, some ("Workflow has no nodes")) := by
    intro h
    unfold validateDag
    rw [h]
    rfl
  refine ⟨hempty_case, ?_, ?_⟩
  · intro hclosed
    by_cases hne : st.nodes = []
    · rw [hempty_case hne]
      simp [hne]
    · obtain ⟨Pf, hiff, hfin⟩ := validateDag_run st hwf hne
      have hKN : ∀ k, k ∈ keysA st.inDeg ↔ k ∈ keysA st.nodes := by
        intro k
        constructor
        · intro hk
          rcases hwf.keyOrigin k hk with hn | ⟨e, he, hor⟩
          · exact hn
          · rcases hor with rfl | rfl
            · exact (hclosed e he).1
            · exact (hclosed e he).2
        · exact hwf.nodesSub k
      have hlen : (keysA st.inDeg).length = st.nodes.length := by
        rw [← nodes_length_eq_keys]
        have := List.Perm.length_eq
          (List.perm_of_nodup_nodup_toFinset_eq hwf.degNodup hwf.nodesNodup
            (Finset.ext (fun k => by
              rw [List.mem_toFinset, List.mem_toFinset]
              exact hKN k)))
        exact this
      rw [hiff]
      constructor
      · intro hcard
        refine ⟨hne, ?_⟩
        intro v hv
        have hvK : v ∈ keysA st.inDeg := cycle_node_mem_keys st hwf hv
        have hvPf : v ∉ Pf := hfin.untainted v (tainted_of_cycle hv)
        have hsub : Pf ⊆ (keysA st.inDeg).toFinset := by
          intro p hp
          exact List.mem_toFinset.2 (hfin.subK p hp)
        have hssub : Pf ⊂ (keysA st.inDeg).toFinset := by
          refine ⟨hsub, ?_⟩
          intro hsup
          exact hvPf (hsup (List.mem_toFinset.2 hvK))
        have hlt := Finset.card_lt_card hssub
        rw [List.toFinset_card_of_nodup hwf.degNodup, hlen] at hlt
        omega
      · rintro ⟨_, hacyc⟩
        have htotal := kahnFinal_total st hwf Pf hfin hacyc
        have heq : Pf = (keysA st.inDeg).toFinset := by
          apply Finset.Subset.antisymm
          · intro p hp
            exact List.mem_toFinset.2 (hfin.subK p hp)
          · intro k hk
            exact htotal k (List.mem_toFinset.1 hk)
        rw [heq, List.toFinset_card_of_nodup hwf.degNodup, hlen]
  · intro hacyc
    by_cases hne : st.nodes = []
    · rw [hempty_case hne]
      simp [hne]
    · obtain ⟨Pf, hiff, hfin⟩ := validateDag_run st hwf hne
      have htotal := kahnFinal_total st hwf Pf hfin hacyc
      have heq : Pf = (keysA st.inDeg).toFinset := by
        apply Finset.Subset.antisymm
        · intro p hp
          exact List.mem_toFinset.2 (hfin.subK p hp)
        · intro k hk
          exact htotal k (List.mem_toFinset.1 hk)
      have hcardPf : Pf.card = (keysA st.inDeg).length := by
        rw [heq, List.toFinset_card_of_nodup hwf.degNodup]
      rw [hiff, hcardPf]
      have hNsub : (keysA st.nodes).toFinset ⊆ (keysA st.inDeg).toFinset := by
        intro k hk
        exact List.mem_toFinset.2 (hwf.nodesSub k (List.mem_toFinset.1 hk))
      constructor
      · intro hlen
        refine ⟨hne, ?_⟩
        have hcards : ((keysA st.inDeg).toFinset).card ≤ ((keysA st.nodes).toFinset).card := by
          rw [List.toFinset_card_of_nodup hwf.degNodup,
            List.toFinset_card_of_nodup hwf.nodesNodup, nodes_length_eq_keys]
          omega
        have hseteq : (keysA st.nodes).toFinset = (keysA st.inDeg).toFinset :=
          Finset.eq_of_subset_of_card_le hNsub hcards
        intro e he
        constructor
        · have := (hwf.edgeKeys e he).1
          have : e.1 ∈ (keysA st.inDeg).toFinset := List.mem_toFinset.2 this
          rw [← hseteq] at this
          exact List.mem_toFinset.1 this
        · have := (hwf.edgeKeys e he).2
          have : e.2 ∈ (keysA st.inDeg).toFinset := List.mem_toFinset.2 this
          rw [← hseteq] at this
          exact List.mem_toFinset.1 this
      · rintro ⟨_, hclosed⟩
        have hKN : ∀ k, k ∈ keysA st.inDeg ↔ k ∈ keysA st.nodes := by
          intro k
          constructor
          · intro hk
            rcases hwf.keyOrigin k hk with hn | ⟨e, he, hor⟩
            · exact hn
            · rcases hor with rfl | rfl
              · exact (hclosed e he).1
              · exact (hclosed e he).2
          · exact hwf.nodesSub k
        rw [← nodes_length_eq_keys]
        exact List.Perm.length_eq
          (List.perm_of_nodup_nodup_toFinset_eq hwf.degNodup hwf.nodesNodup
            (Finset.ext (fun k => by
              rw [List.mem_toFinset, List.mem_toFinset]
              exact hKN k)))

/-- Counterexample to C3 as stated: this graph contains a cycle
(`n1 → n2 → n1`) and an edge whose endpoints are not nodes (`x → y`), yet
`validate_dag` reports it valid — the two dangling-edge phantom keys are
processed in place of the two cycle nodes, so the processed count still
matches the node count. -/
theorem claim_C3_counterexample :
    validateDag (builtFrom
        [WOp.node { nodeId := "n1", modelId := "m1", modelName := "M1", promptTemplate := "t1" },
         WOp.node { nodeId := "n2", modelId := "m2", modelName := "M2", promptTemplate := "t2" },
         WOp.edge ("n1") ("n2"), WOp.edge ("n2") ("n1"), WOp.edge ("x") ("y")])
      = (true, none)
    ∧ EdgePath (builtFrom
        [WOp.node { nodeId := "n1", modelId := "m1", modelName := "M1", promptTemplate := "t1" },
         WOp.node { nodeId := "n2", modelId := "m2", modelName := "M2", promptTemplate := "t2" },
         WOp.edge ("n1") ("n2"), WOp.edge ("n2") ("n1"), WOp.edge ("x") ("y")]).edges
        ("n1") ("n1")
    ∧ ∃ e ∈ (builtFrom
        [WOp.node { nodeId := "n1", modelId := "m1", modelName := "M1", promptTemplate := "t1" },
         WOp.node { nodeId := "n2", modelId := "m2", modelName := "M2", promptTemplate := "t2" },
         WOp.edge ("n1") ("n2"), WOp.edge ("n2") ("n1"), WOp.edge ("x") ("y")]).edges,
        e.1 ∉ keysA (builtFrom
        [WOp.node { nodeId := "n1", modelId := "m1", modelName := "M1", promptTemplate := "t1" },
         WOp.node { nodeId := "n2", modelId := "m2", modelName := "M2", promptTemplate := "t2" },
         WOp.edge ("n1") ("n2"), WOp.edge ("n2") ("n1"), WOp.edge ("x") ("y")]).nodes := by
  refine ⟨by decide, ?_, ?_⟩
  · have h1 : (("n1" : String), ("n2" : String)) ∈ (builtFrom
        [WOp.node { nodeId := "n1", modelId := "m1", modelName := "M1", promptTemplate := "t1" },
         WOp.node { nodeId := "n2", modelId := "m2", modelName := "M2", promptTemplate := "t2" },
         WOp.edge ("n1") ("n2"), WOp.edge ("n2") ("n1"), WOp.edge ("x") ("y")]).edges := by
      decide
    have h2 : (("n2" : String), ("n1" : String)) ∈ (builtFrom
        [WOp.node { nodeId := "n1", modelId := "m1", modelName := "M1", promptTemplate := "t1" },
         WOp.node { nodeId := "n2", modelId := "m2", modelName := "M2", promptTemplate := "t2" },
         WOp.edge ("n1") ("n2"), WOp.edge ("n2") ("n1"), WOp.edge ("x") ("y")]).edges := by
      decide
    exact EdgePath.tail (EdgePath.single h1) h2
  · exact ⟨("x", "y"), by decide, by decide⟩

/-- Witness for the amended C3, exercising the nonempty-acyclic-closed case
on the Scenario-A graph. -/
theorem claim_C3_witness :
    EdgeClosed (builtFrom
        [WOp.node { nodeId := "n1", modelId := "m1", modelName := "M1", promptTemplate := "t1" },
         WOp.node { nodeId := "n2", modelId := "m2", modelName := "M2", promptTemplate := "t2" },
         WOp.edge ("n1") ("n2")])
    ∧ ((validateDag (builtFrom
        [WOp.node { nodeId := "n1", modelId := "m1", modelName := "M1", promptTemplate := "t1" },
         WOp.node { nodeId := "n2", modelId := "m2", modelName := "M2", promptTemplate := "t2" },
         WOp.edge ("n1") ("n2")])).1 = true
      ↔ (builtFrom
        [WOp.node { nodeId := "n1", modelId := "m1", modelName := "M1", promptTemplate := "t1" },
         WOp.node { nodeId := "n2", modelId := "m2", modelName := "M2", promptTemplate := "t2" },
         WOp.edge ("n1") ("n2")]).nodes ≠ []
        ∧ Acyclic (builtFrom
        [WOp.node { nodeId := "n1", modelId := "m1", modelName := "M1", promptTemplate := "t1" },
         WOp.node { nodeId := "n2", modelId := "m2", modelName := "M2", promptTemplate := "t2" },
         WOp.edge ("n1") ("n2")]).edges) := by
  have hclosed : EdgeClosed (builtFrom
      [WOp.node { nodeId := "n1", modelId := "m1", modelName := "M1", promptTemplate := "t1" },
       WOp.node { nodeId := "n2", modelId := "m2", modelName := "M2", promptTemplate := "t2" },
       WOp.edge ("n1") ("n2")]) := by
    intro e he
    simp only [builtFrom, List.foldl_cons, List.foldl_nil] at he ⊢
    rcases (by exact he : e ∈ [(("n1" : String), ("n2" : String))]) with h
    simp at h
    subst h
    refine ⟨?_, ?_⟩ <;> decide
  exact ⟨hclosed,
    (claim_C3
      [WOp.node { nodeId := "n1", modelId := "m1", modelName := "M1", promptTemplate := "t1" },
       WOp.node { nodeId := "n2", modelId := "m2", modelName := "M2", promptTemplate := "t2" },
       WOp.edge ("n1") ("n2")]).2.1 hclosed⟩

theorem decIfPos_run (ns : List String) :
    ∀ (temp : List (String × Int)),
      (∀ n ∈ ns, ∃ v, lookupA temp n = some v ∧ (v ≤ 0 ∨ (ns.count n : Int) ≤ v)) →
      keysA (ns.foldl decIfPos temp) = keysA temp
      ∧ ∀ k v, lookupA temp k = some v →
          lookupA (ns.foldl decIfPos temp) k
            = some (if v ≤ 0 then v else v - (ns.count k : Int)) := by
  induction ns with
  | nil =>
    intro temp _
    refine ⟨rfl, ?_⟩
    intro k v hv
    simp only [List.foldl_nil]
    rw [hv]
    by_cases h : v ≤ 0 <;> simp [h]
  | cons n rest ih =>
    intro temp hyp
    obtain ⟨v, hv, hdis⟩ := hyp n (List.mem_cons_self n rest)
    have hcons : (n :: rest).foldl decIfPos temp = rest.foldl decIfPos (decIfPos temp n) := by
      rw [List.foldl_cons]
    by_cases hvpos : v > 0
    · have hcnt : ((n :: rest).count n : Int) ≤ v := by
        rcases hdis with h | h
        · omega
        · exact h
      have hcn : ((n :: rest).count n : Int) = (rest.count n : Int) + 1 := by
        rw [count_cons_eq]
        simp
      have hstep : decIfPos temp n = setA temp n (v - 1) := by
        simp only [decIfPos, hv, if_pos hvpos]
      have hlook' : ∀ k, lookupA (setA temp n (v - 1)) k
          = if n = k then some (v - 1) else lookupA temp k := by
        intro k
        by_cases hk : n = k
        · subst hk
          simp [lookupA_setA_self]
        · simp [hk, lookupA_setA_ne temp (v - 1) hk]
      have hyp' : ∀ m ∈ rest, ∃ w, lookupA (setA temp n (v - 1)) m = some w
          ∧ (w ≤ 0 ∨ ((rest.count m : Int) ≤ w)) := by
        intro m hm
        by_cases hmn : n = m
        · subst hmn
          refine ⟨v - 1, by simp [hlook'], ?_⟩
          by_cases hz : v - 1 ≤ 0
          · exact Or.inl hz
          · right
            omega
        · obtain ⟨w, hw, hdw⟩ := hyp m (List.mem_cons_of_mem n hm)
          refine ⟨w, by simp [hlook', hmn, hw], ?_⟩
          rcases hdw with h | h
          · exact Or.inl h
          · right
            have : ((rest.count m : Int)) ≤ ((n :: rest).count m : Int) := by
              rw [count_cons_eq]
              simp [hmn]
            omega
      obtain ⟨hkeys', hvals'⟩ := ih (setA temp n (v - 1)) hyp'
      rw [hcons, hstep]
      refine ⟨hkeys'.trans (keysA_setA_of_mem temp _ (mem_keysA_of_mem (lookupA_mem hv))), ?_⟩
      intro k w hw
      by_cases hk : n = k
      · subst hk
        rw [hv] at hw
        cases hw
        have hval := hvals' n (v - 1) (by simp [hlook'])
        rw [hval]
        have hvneg : ¬ v ≤ 0 := by omega
        rw [if_neg hvneg]
        by_cases hz : v - 1 ≤ 0
        · rw [if_pos hz]
          have hc1 : (rest.count n : Int) = 0 := by omega
          rw [hcn]
          congr 1
          omega
        · rw [if_neg hz, hcn]
          congr 1
          omega
      · have hw' : lookupA (setA temp n (v - 1)) k = some w := by
          rw [hlook', if_neg hk, hw]
        have := hvals' k w hw'
        rw [this]
        have hcc : ((rest.count k : Int)) = ((n :: rest).count k : Int) := by
          rw [count_cons_eq]
          simp [hk]
        rw [hcc]
    · have hstep : decIfPos temp n = temp := by
        simp only [decIfPos, hv, if_neg hvpos]
      have hyp' : ∀ m ∈ rest, ∃ w, lookupA temp m = some w
          ∧ (w ≤ 0 ∨ ((rest.count m : Int) ≤ w)) := by
        intro m hm
        obtain ⟨w, hw, hdw⟩ := hyp m (List.mem_cons_of_mem n hm)
        refine ⟨w, hw, ?_⟩
        rcases hdw with h | h
        · exact Or.inl h
        · right
          have : ((rest.count m : Int)) ≤ ((n :: rest).count m : Int) := by
            rw [count_cons_eq]
            by_cases hmn : n = m <;> simp [hmn] <;> omega
          omega
      obtain ⟨hkeys', hvals'⟩ := ih temp hyp'
      rw [hcons, hstep]
      refine ⟨hkeys', ?_⟩
      intro k w hw
      rw [hvals' k w hw]
      by_cases hz : w ≤ 0
      · rw [if_pos hz, if_pos hz]
      · rw [if_neg hz, if_neg hz]
        have hknn : ¬ n = k := by
          intro he
          subst he
          rw [hv] at hw
          cases hw
          omega
        have hcc : ((rest.count k : Int)) = ((n :: rest).count k : Int) := by
          rw [count_cons_eq]
          simp [hknn]
        rw [hcc]

/-- One fold step of `processLayer` (mark member `-1`, then conditionally
decrement its successors), acting on the mid-layer invariant. -/
theorem processLayer_member (st : WState) (hwf : StWf st) (P S : Finset String)
    (u : String) (temp : List (String × Int))
    (huK : u ∈ keysA st.inDeg) (huP : u ∉ P) (huS : u ∉ S)
    (hu0 : needVal st.edges P u = 0)
    (hkeys : keysA temp = keysA st.inDeg)
    (hvals : ∀ k ∈ keysA st.inDeg,
      lookupA temp k = some (if k ∈ P ∪ S then (-1 : Int) else needVal st.edges (P ∪ S) k)) :
    keysA ((adjacencyOf st u).foldl decIfPos (setA temp u (-1))) = keysA st.inDeg
    ∧ ∀ k ∈ keysA st.inDeg,
        lookupA ((adjacencyOf st u).foldl decIfPos (setA temp u (-1))) k
          = some (if k ∈ P ∪ insert u S then (-1 : Int)
                  else needVal st.edges (P ∪ insert u S) k) := by
  have huPS : u ∉ P ∪ S := by
    simp [Finset.mem_union, huP, huS]
  have hins : P ∪ insert u S = insert u (P ∪ S) := by
    ext x
    simp only [Finset.mem_union, Finset.mem_insert]
    tauto
  have hlookt1 : ∀ k, lookupA (setA temp u (-1)) k
      = if u = k then some (-1 : Int) else lookupA temp k := by
    intro k
    by_cases hk : u = k
    · subst hk
      simp [lookupA_setA_self]
    · simp [hk, lookupA_setA_ne temp (-1 : Int) hk]
  have hcount_out : ∀ k, ((adjacencyOf st u).count k : Int)
      = (outEdges st.edges u k : Int) := by
    intro k
    rw [adjacencyOf_count]
  have hneedins : ∀ k, needVal st.edges (insert u (P ∪ S)) k
      = needVal st.edges (P ∪ S) k - (outEdges st.edges u k : Int) := by
    intro k
    unfold needVal
    rw [indegDone_insert st.edges (P ∪ S) u k huPS]
    push_cast
    ring
  have hyp : ∀ n ∈ adjacencyOf st u, ∃ v, lookupA (setA temp u (-1)) n = some v
      ∧ (v ≤ 0 ∨ (((adjacencyOf st u).count n : Int) ≤ v)) := by
    intro n hn
    have hnK : n ∈ keysA st.inDeg := adjacencyOf_mem_keys st hwf u n hn
    by_cases hun : u = n
    · exact ⟨-1, by rw [hlookt1, if_pos hun], Or.inl (by omega)⟩
    · refine ⟨_, by rw [hlookt1, if_neg hun]; exact hvals n hnK, ?_⟩
      by_cases hnPS : n ∈ P ∪ S
      · rw [if_pos hnPS]
        exact Or.inl (by omega)
      · rw [if_neg hnPS]
        right
        rw [hcount_out]
        exact outEdges_le_needVal st.edges (P ∪ S) u n huPS
  obtain ⟨hkeys', hvals'⟩ := decIfPos_run (adjacencyOf st u) (setA temp u (-1)) hyp
  have hkeyst1 : keysA (setA temp u (-1)) = keysA st.inDeg := by
    rw [keysA_setA_of_mem temp _ (hkeys ▸ huK), hkeys]
  refine ⟨hkeys'.trans hkeyst1, ?_⟩
  intro k hkK
  rw [hins]
  by_cases hku : u = k
  · subst hku
    have := hvals' u (-1) (by rw [hlookt1, if_pos rfl])
    rw [this]
    simp
  · have hlk : lookupA (setA temp u (-1)) k
        = some (if k ∈ P ∪ S then (-1 : Int) else needVal st.edges (P ∪ S) k) := by
      rw [hlookt1, if_neg hku]
      exact hvals k hkK
    have := hvals' k _ hlk
    rw [this]
    by_cases hkPS : k ∈ P ∪ S
    · rw [if_pos hkPS]
      have hk' : k ∈ insert u (P ∪ S) := Finset.mem_insert_of_mem hkPS
      simp [hk']
    · rw [if_neg hkPS]
      have hk' : k ∉ insert u (P ∪ S) := by
        simp [Finset.mem_insert, hkPS]
        intro he
        exact absurd he.symm hku
      rw [if_neg hk']
      have hnn := needVal_nonneg st.edges (P ∪ S) k
      by_cases hz : needVal st.edges (P ∪ S) k ≤ 0
      · have h0 : needVal st.edges (P ∪ S) k = 0 := by omega
        rw [if_pos hz, hneedins, h0]
        have hout0 : outEdges st.edges u k = 0 := by
          by_contra hpos
          have hpos' : 0 < outEdges st.edges u k := Nat.pos_of_ne_zero hpos
          have hle := outEdges_le_needVal st.edges (P ∪ S) u k huPS
          omega
        rw [hout0]
        simp
      · rw [if_neg hz, hneedins, hcount_out]

/-- Folding a whole layer through `processLayer` re-establishes the layer
invariant with the layer's members added to the processed set. -/
theorem processLayer_run (st : WState) (hwf : StWf st) (P : Finset String) :
    ∀ (sub : List String) (S : Finset String) (temp : List (String × Int)),
      sub.Nodup →
      (∀ x ∈ sub, x ∈ keysA st.inDeg ∧ x ∉ P ∧ needVal st.edges P x = 0 ∧ x ∉ S) →
      keysA temp = keysA st.inDeg →
      (∀ k ∈ keysA st.inDeg,
        lookupA temp k = some (if k ∈ P ∪ S then (-1 : Int) else needVal st.edges (P ∪ S) k)) →
      keysA (sub.foldl (fun t nid => (adjacencyOf st nid).foldl decIfPos (setA t nid (-1))) temp)
          = keysA st.inDeg
      ∧ ∀ k ∈ keysA st.inDeg,
          lookupA (sub.foldl (fun t nid => (adjacencyOf st nid).foldl decIfPos (setA t nid (-1))) temp) k
            = some (if k ∈ P ∪ (S ∪ sub.toFinset) then (-1 : Int)
                    else needVal st.edges (P ∪ (S ∪ sub.toFinset)) k) := by
  intro sub
  induction sub with
  | nil =>
    intro S temp _ _ hkeys hvals
    refine ⟨hkeys, ?_⟩
    intro k hk
    simpa using hvals k hk
  | cons u rest ih =>
    intro S temp hnd hfacts hkeys hvals
    obtain ⟨huK, huP, hu0, huS⟩ := hfacts u (List.mem_cons_self u rest)
    obtain ⟨hkeys1, hvals1⟩ :=
      processLayer_member st hwf P S u temp huK huP huS hu0 hkeys hvals
    have hndr : rest.Nodup := (List.nodup_cons.1 hnd).2
    have hur : u ∉ rest := (List.nodup_cons.1 hnd).1
    have hfacts' : ∀ x ∈ rest, x ∈ keysA st.inDeg ∧ x ∉ P
        ∧ needVal st.edges P x = 0 ∧ x ∉ insert u S := by
      intro x hx
      obtain ⟨h1, h2, h3, h4⟩ := hfacts x (List.mem_cons_of_mem u hx)
      refine ⟨h1, h2, h3, ?_⟩
      simp [Finset.mem_insert, h4]
      intro he
      subst he
      exact hur hx
    obtain ⟨hkeys2, hvals2⟩ := ih (insert u S) _ hndr hfacts' hkeys1 hvals1
    rw [List.foldl_cons]
    refine ⟨hkeys2, ?_⟩
    intro k hk
    rw [hvals2 k hk]
    have hset : insert u S ∪ rest.toFinset = S ∪ (u :: rest).toFinset := by
      ext x
      simp only [Finset.mem_union, Finset.mem_insert, List.toFinset_cons]
      tauto
    rw [hset]

/-- `layersRun` produces a `LayerChain`, its flattened output is
duplicate-free and fresh w.r.t. `P`, and every key left unprocessed at the
natural stop has an unprocessed in-key predecessor. -/
theorem layersRun_spec (st : WState) (hwf : StWf st) :
    ∀ (fuel : Nat) (temp : List (String × Int)) (P : Finset String),
      LayerInv st temp P →
      (keysA st.inDeg).length + 1 ≤ fuel + P.card →
      LayerChain st.edges P (layersRun (adjacencyOf st) fuel temp)
      ∧ (layersRun (adjacencyOf st) fuel temp).join.Nodup
      ∧ (∀ x ∈ (layersRun (adjacencyOf st) fuel temp).join, x ∈ keysA st.inDeg ∧ x ∉ P)
      ∧ (∀ k ∈ keysA st.inDeg, k ∉ P → k ∉ (layersRun (adjacencyOf st) fuel temp).join →
          ∃ e ∈ st.edges, e.2 = k ∧ e.1 ∉ P
            ∧ e.1 ∉ (layersRun (adjacencyOf st) fuel temp).join) := by
  intro fuel
  induction fuel with
  | zero =>
    intro temp P inv hfuel
    exfalso
    have hsub : P ⊆ (keysA st.inDeg).toFinset := by
      intro p hp
      exact List.mem_toFinset.2 (inv.pSub p hp)
    have := Finset.card_le_card hsub
    rw [List.toFinset_card_of_nodup hwf.degNodup] at this
    omega
  | succ fuel ih =>
    intro temp P inv hfuel
    have hndtemp : (keysA temp).Nodup := inv.keysEq ▸ hwf.degNodup
    have hlayerchar : ∀ x,
        x ∈ (temp.filter (fun p => decide (p.2 = 0))).map Prod.fst
        ↔ (x ∈ keysA st.inDeg ∧ x ∉ P ∧ needVal st.edges P x = 0) := by
      intro x
      rw [mem_zeroKeys_iff temp hndtemp x]
      constructor
      · intro hx
        have hxK : x ∈ keysA st.inDeg := by
          rw [← inv.keysEq]
          exact mem_keysA_of_mem (lookupA_mem hx)
        have := inv.valAt x hxK
        rw [hx] at this
        have hval := Option.some.inj this
        by_cases hxP : x ∈ P
        · rw [if_pos hxP] at hval
          omega
        · rw [if_neg hxP] at hval
          exact ⟨hxK, hxP, hval.symm⟩
      · rintro ⟨hxK, hxP, hx0⟩
        rw [inv.valAt x hxK, if_neg hxP, hx0]
    set layer := (temp.filter (fun p => decide (p.2 = 0))).map Prod.fst with hlayer
    have hrunstep : layersRun (adjacencyOf st) (fuel + 1) temp
        = if layer.isEmpty then []
          else layer :: layersRun (adjacencyOf st) fuel (processLayer (adjacencyOf st) temp layer) := by
      rfl
    by_cases hle : layer.isEmpty = true
    · rw [hrunstep, if_pos hle]
      have hlnil : layer = [] := List.isEmpty_iff.1 hle
      refine ⟨LayerChain.nil P, by simp, by simp, ?_⟩
      intro k hK hkP _
      have hne0 : needVal st.edges P k ≠ 0 := by
        intro h0
        have : k ∈ layer := (hlayerchar k).2 ⟨hK, hkP, h0⟩
        rw [hlnil] at this
        simp at this
      obtain ⟨e, he, ht, hs⟩ := exists_unprocessed_edge st.edges P k hne0
      exact ⟨e, he, ht, hs, by simp⟩
    · rw [hrunstep, if_neg hle]
      have hlne : layer ≠ [] := by
        intro h
        rw [h] at hle
        simp at hle
      have hlnd : layer.Nodup :=
        List.Nodup.sublist (zeroKeys_sublist temp _) hndtemp
      have hlfacts : ∀ x ∈ layer, x ∈ keysA st.inDeg ∧ x ∉ P ∧ needVal st.edges P x = 0 :=
        fun x hx => (hlayerchar x).1 hx
      have hinv0 : ∀ k ∈ keysA st.inDeg,
          lookupA temp k = some (if k ∈ P ∪ (∅ : Finset String) then (-1 : Int)
            else needVal st.edges (P ∪ (∅ : Finset String)) k) := by
        intro k hk
        simpa using inv.valAt k hk
      obtain ⟨hkeys', hvals'⟩ := processLayer_run st hwf P layer ∅ temp hlnd
        (fun x hx => by
          obtain ⟨h1, h2, h3⟩ := hlfacts x hx
          exact ⟨h1, h2, h3, by simp⟩)
        inv.keysEq hinv0
      have hPL : P ∪ ((∅ : Finset String) ∪ layer.toFinset) = P ∪ layer.toFinset := by
        simp
      have hinv' : LayerInv st (processLayer (adjacencyOf st) temp layer) (P ∪ layer.toFinset) := by
        constructor
        · exact hkeys'
        · intro k hk
          have := hvals' k hk
          rw [hPL] at this
          exact this
        · intro p hp
          rcases Finset.mem_union.1 hp with hp | hp
          · exact inv.pSub p hp
          · exact (hlfacts p (List.mem_toFinset.1 hp)).1
        · intro p hp e he ht
          rcases Finset.mem_union.1 hp with hp | hp
          · exact Finset.mem_union_left _ (inv.pClosed p hp e he ht)
          · have h0 := (hlfacts p (List.mem_toFinset.1 hp)).2.2
            exact Finset.mem_union_left _
              (sources_mem_of_needVal_zero st.edges P p h0 e he ht)
      have hcardP : (P ∪ layer.toFinset).card ≥ P.card + 1 := by
        obtain ⟨x, hx⟩ := List.exists_mem_of_ne_nil layer hlne
        have hxP : x ∉ P := (hlfacts x hx).2.1
        have hsub : insert x P ⊆ P ∪ layer.toFinset := by
          intro y hy
          rcases Finset.mem_insert.1 hy with rfl | hy
          · exact Finset.mem_union_right _ (List.mem_toFinset.2 hx)
          · exact Finset.mem_union_left _ hy
        have := Finset.card_le_card hsub
        rw [Finset.card_insert_of_not_mem hxP] at this
        omega
      obtain ⟨hchain, hjnd, hjmem, hjfinal⟩ := ih (processLayer (adjacencyOf st) temp layer)
        (P ∪ layer.toFinset) hinv' (by omega)
      have hjoin_disj : ∀ x ∈ (layersRun (adjacencyOf st) fuel
          (processLayer (adjacencyOf st) temp layer)).join, x ∉ layer := by
        intro x hx hxl
        exact (hjmem x hx).2 (Finset.mem_union_right _ (List.mem_toFinset.2 hxl))
      refine ⟨?_, ?_, ?_, ?_⟩
      · exact LayerChain.cons P layer _ hlne hlnd
          (fun x hx => (hlfacts x hx).2.1)
          (fun e he ht => sources_mem_of_needVal_zero st.edges P e.2
            (hlfacts e.2 ht).2.2 e he rfl)
          hchain
      · rw [List.join]
        refine List.Nodup.append hlnd hjnd ?_
        intro x hxl hxj
        exact hjoin_disj x hxj hxl
      · intro x hx
        rw [List.join] at hx
        rcases List.mem_append.1 hx with hx | hx
        · exact ⟨(hlfacts x hx).1, (hlfacts x hx).2.1⟩
        · refine ⟨(hjmem x hx).1, ?_⟩
          intro hxP
          exact (hjmem x hx).2 (Finset.mem_union_left _ hxP)
      · intro k hK hkP hkj
        rw [List.join] at hkj
        have hkl : k ∉ layer := fun h => hkj (List.mem_append_left _ h)
        have hkj' : k ∉ (layersRun (adjacencyOf st) fuel
            (processLayer (adjacencyOf st) temp layer)).join :=
          fun h => hkj (List.mem_append_right _ h)
        have hkPL : k ∉ P ∪ layer.toFinset := by
          simp only [Finset.mem_union, List.mem_toFinset]
          rintro (hmem | hmem)
          · exact hkP hmem
          · exact hkl hmem
        obtain ⟨e, he, ht, hs, hsj⟩ := hjfinal k hK hkPL hkj'
        refine ⟨e, he, ht, ?_, ?_⟩
        · intro hsP
          exact hs (Finset.mem_union_left _ hsP)
        · rw [List.join]
          intro hmem
          rcases List.mem_append.1 hmem with hm | hm
          · exact hs (Finset.mem_union_right _ (List.mem_toFinset.2 hm))
          · exact hsj hm

theorem layerInv_init (st : WState) (hwf : StWf st) : LayerInv st st.inDeg ∅ := by
  constructor
  · rfl
  · intro k hk
    obtain ⟨v, hv⟩ := lookupA_isSome_of_mem hk
    rw [hv]
    have hval : v = (indegCount st.edges k : Int) := hwf.degVal k v hv
    simp [hval, needVal, indegDone_empty]
  · intro p hp
    simp at hp
  · intro p hp
    simp at hp

theorem keysA_length {α : Type} (l : List (String × α)) : (keysA l).length = l.length := by
  simp [keysA]

theorem keys_eq_nodes_of_closed (st : WState) (hwf : StWf st) (hclosed : EdgeClosed st) :
    ∀ k, k ∈ keysA st.inDeg ↔ k ∈ keysA st.nodes := by
  intro k
  constructor
  · intro hk
    rcases hwf.keyOrigin k hk with hn | ⟨e, he, hor⟩
    · exact hn
    · rcases hor with rfl | rfl
      · exact (hclosed e he).1
      · exact (hclosed e he).2
  · exact hwf.nodesSub k

theorem layerChain_join_not_mem (E : List (String × String)) :
    ∀ (layers : List (List String)) (P : Finset String),
      LayerChain E P layers → ∀ x ∈ layers.join, x ∉ P := by
  intro layers
  induction layers with
  | nil =>
    intro P _ x hx
    simp at hx
  | cons layer rest ih =>
    intro P hchain x hx
    cases hchain with
    | cons _ _ _ hne hnd hdisj hpred hrest =>
      rw [List.join] at hx
      rcases List.mem_append.1 hx with hx | hx
      · exact hdisj x hx
      · intro hxP
        exact ih (P ∪ layer.toFinset) hrest x hx (Finset.mem_union_left _ hxP)

theorem layerChain_edge_order (E : List (String × String)) :
    ∀ (layers : List (List String)) (P : Finset String),
      LayerChain E P layers → ∀ e ∈ E, ∀ i, ∀ hi : i < layers.length,
        e.2 ∈ layers.get ⟨i, hi⟩ →
        e.1 ∈ P ∨ ∃ j, ∃ hj : j < layers.length, j < i ∧ e.1 ∈ layers.get ⟨j, hj⟩ := by
  intro layers
  induction layers with
  | nil =>
    intro P _ e _ i hi
    simp at hi
  | cons layer rest ih =>
    intro P hchain e he i hi hmem
    cases hchain with
    | cons _ _ _ hne hnd hdisj hpred hrest =>
      cases i with
      | zero =>
        exact Or.inl (hpred e he hmem)
      | succ i =>
        have hi' : i < rest.length := by
          simpa using hi
        have hmem' : e.2 ∈ rest.get ⟨i, hi'⟩ := by
          simpa using hmem
        rcases ih (P ∪ layer.toFinset) hrest e he i hi' hmem' with hP | ⟨j, hj, hji, hmemj⟩
        · rcases Finset.mem_union.1 hP with hP | hL
          · exact Or.inl hP
          · refine Or.inr ⟨0, by simp, by omega, ?_⟩
            simpa using List.mem_toFinset.1 hL
        · refine Or.inr ⟨j + 1, by simpa using hj, by omega, ?_⟩
          simpa using hmemj

/-- The layers of `get_execution_order` on a graph built by
`add_node`/`add_edge`, together with the facts needed by claims C1/C4. -/
theorem getExecutionOrder_spec (st : WState) (hwf : StWf st) :
    LayerChain st.edges ∅ (getExecutionOrder st)
    ∧ (getExecutionOrder st).join.Nodup
    ∧ (∀ x ∈ (getExecutionOrder st).join, x ∈ keysA st.inDeg)
    ∧ (Acyclic st.edges → ∀ k ∈ keysA st.inDeg, k ∈ (getExecutionOrder st).join) := by
  have hinit := layerInv_init st hwf
  have hfuel : (keysA st.inDeg).length + 1 ≤ (st.inDeg.length + 1) + (∅ : Finset String).card := by
    rw [keysA_length]
    simp
  obtain ⟨hchain, hnd, hmem, hfinal⟩ :=
    layersRun_spec st hwf (st.inDeg.length + 1) st.inDeg ∅ hinit hfuel
  refine ⟨hchain, hnd, fun x hx => (hmem x hx).1, ?_⟩
  intro hacyc
  by_contra hc
  push_neg at hc
  obtain ⟨k₀, hk₀, hk₀'⟩ := hc
  set J := (getExecutionOrder st).join with hJ
  set S : Finset String := (keysA st.inDeg).toFinset \ J.toFinset with hS
  have hSne : S.Nonempty := by
    refine ⟨k₀, ?_⟩
    rw [hS, Finset.mem_sdiff, List.mem_toFinset, List.mem_toFinset]
    exact ⟨hk₀, hk₀'⟩
  have hpred : ∀ k ∈ S, ∃ s, s ∈ S ∧ (s, k) ∈ st.edges := by
    intro k hk
    rw [hS, Finset.mem_sdiff, List.mem_toFinset, List.mem_toFinset] at hk
    obtain ⟨e, he, ht, _, hsj⟩ := hfinal k hk.1 (by simp) hk.2
    have hsK : e.1 ∈ keysA st.inDeg := (hwf.edgeKeys e he).1
    refine ⟨e.1, ?_, ?_⟩
    · rw [hS, Finset.mem_sdiff, List.mem_toFinset, List.mem_toFinset]
      exact ⟨hsK, hsj⟩
    · have : e = (e.1, k) := by
        rw [← ht]
      rw [← this]
      exact he
  obtain ⟨v, hv⟩ := exists_cycle_of_preds st.edges S hSne hpred
  exact hacyc v hv

/-- Claim C4 — for every graph built by `add_node`/`add_edge` that is
acyclic and whose edges all reference present nodes, the execution layers
partition the node set (their concatenation is duplicate-free and contains
exactly the node ids), and every edge's source appears in a strictly
earlier layer than its target. -/
theorem claim_C4 (ops : List WOp)
    (hacyc : Acyclic (builtFrom ops).edges)
    (hclosed : EdgeClosed (builtFrom ops)) :
    (getExecutionOrder (builtFrom ops)).join.Nodup
    ∧ (∀ id, id ∈ (getExecutionOrder (builtFrom ops)).join
        ↔ id ∈ keysA (builtFrom ops).nodes)
    ∧ (∀ e ∈ (builtFrom ops).edges,
        ∃ j i, ∃ hj : j < (getExecutionOrder (builtFrom ops)).length,
          ∃ hi : i < (getExecutionOrder (builtFrom ops)).length,
          j < i ∧ e.1 ∈ (getExecutionOrder (builtFrom ops)).get ⟨j, hj⟩
            ∧ e.2 ∈ (getExecutionOrder (builtFrom ops)).get ⟨i, hi⟩) := by
  set st := builtFrom ops with hst
  have hwf : StWf st := stWf_builtFrom ops
  obtain ⟨hchain, hnd, hsubK, htotal⟩ := getExecutionOrder_spec st hwf
  have hKN := keys_eq_nodes_of_closed st hwf hclosed
  have hmemiff : ∀ id, id ∈ (getExecutionOrder st).join ↔ id ∈ keysA st.nodes := by
    intro id
    constructor
    · intro h
      exact (hKN id).1 (hsubK id h)
    · intro h
      exact htotal hacyc id ((hKN id).2 h)
  refine ⟨hnd, hmemiff, ?_⟩
  intro e he
  have htK : e.2 ∈ keysA st.inDeg := (hwf.edgeKeys e he).2
  have htJ : e.2 ∈ (getExecutionOrder st).join := htotal hacyc e.2 htK
  obtain ⟨l, hl, hmeml⟩ := List.mem_join.1 htJ
  obtain ⟨⟨i, hi⟩, hget⟩ := List.mem_iff_get.1 hl
  rcases layerChain_edge_order st.edges (getExecutionOrder st) ∅ hchain e he i hi
      (by rw [hget]; exact hmeml) with habs | ⟨j, hj, hji, hmemj⟩
  · simp at habs
  · exact ⟨j, i, hj, hi, hji, hmemj, by rw [hget]; exact hmeml⟩

/-- Witness for C4: the Scenario-A graph `n1 → n2`. -/
theorem claim_C4_witness :
    (Acyclic (builtFrom
        [WOp.node { nodeId := "n1", modelId := "m1", modelName := "M1", promptTemplate := "t1" },
         WOp.node { nodeId := "n2", modelId := "m2", modelName := "M2", promptTemplate := "t2" },
         WOp.edge ("n1") ("n2")]).edges
      ∧ EdgeClosed (builtFrom
        [WOp.node { nodeId := "n1", modelId := "m1", modelName := "M1", promptTemplate := "t1" },
         WOp.node { nodeId := "n2", modelId := "m2", modelName := "M2", promptTemplate := "t2" },
         WOp.edge ("n1") ("n2")]))
    ∧ (getExecutionOrder (builtFrom
        [WOp.node { nodeId := "n1", modelId := "m1", modelName := "M1", promptTemplate := "t1" },
         WOp.node { nodeId := "n2", modelId := "m2", modelName := "M2", promptTemplate := "t2" },
         WOp.edge ("n1") ("n2")])).join.Nodup := by
  have hE : (builtFrom
      [WOp.node { nodeId := "n1", modelId := "m1", modelName := "M1", promptTemplate := "t1" },
       WOp.node { nodeId := "n2", modelId := "m2", modelName := "M2", promptTemplate := "t2" },
       WOp.edge ("n1") ("n2")]).edges = [(("n1" : String), ("n2" : String))] := by
    rfl
  have hacyc : Acyclic (builtFrom
      [WOp.node { nodeId := "n1", modelId := "m1", modelName := "M1", promptTemplate := "t1" },
       WOp.node { nodeId := "n2", modelId := "m2", modelName := "M2", promptTemplate := "t2" },
       WOp.edge ("n1") ("n2")]).edges := by
    rw [hE]
    have hpath : ∀ a b : String, EdgePath [(("n1" : String), ("n2" : String))] a b →
        a = "n1" ∧ b = "n2" := by
      intro a b h
      induction h with
      | single hmem =>
        simp at hmem
        exact hmem
      | tail hab hbc ih =>
        simp at hbc
        obtain ⟨hb, _⟩ := hbc
        obtain ⟨_, hb2⟩ := ih
        rw [hb] at hb2
        exact absurd hb2 (by decide)
    intro v hv
    obtain ⟨h1, h2⟩ := hpath v v hv
    rw [h1] at h2
    exact absurd h2 (by decide)
  have hclosed : EdgeClosed (builtFrom
      [WOp.node { nodeId := "n1", modelId := "m1", modelName := "M1", promptTemplate := "t1" },
       WOp.node { nodeId := "n2", modelId := "m2", modelName := "M2", promptTemplate := "t2" },
       WOp.edge ("n1") ("n2")]) := by
    intro e he
    rw [hE] at he
    simp at he
    subst he
    exact ⟨by decide, by decide⟩
  exact ⟨⟨hacyc, hclosed⟩,
    (claim_C4
      [WOp.node { nodeId := "n1", modelId := "m1", modelName := "M1", promptTemplate := "t1" },
       WOp.node { nodeId := "n2", modelId := "m2", modelName := "M2", promptTemplate := "t2" },
       WOp.edge ("n1") ("n2")] hacyc hclosed).1⟩

theorem lookupA_map_nodeRes (m : List (String × WNode)) (k : String) :
    lookupA (m.map (fun p => (p.1, nodeRes p.2))) k = (lookupA m k).map nodeRes := by
  induction m with
  | nil => rfl
  | cons hd tl ih =>
    obtain ⟨k₀, n₀⟩ := hd
    by_cases hk : k₀ = k
    · simp [lookupA, hk]
    · simp [lookupA, hk, ih]

theorem keysA_map_nodeRes (m : List (String × WNode)) :
    keysA (m.map (fun p => (p.1, nodeRes p.2))) = keysA m := by
  simp [keysA]

theorem recordedOutput_eq (m : List (String × WNode)) (p : String) :
    recordedOutput (m.map (fun q => (q.1, nodeRes q.2))) p = outVal (lookupA m p) := by
  unfold recordedOutput
  rw [lookupA_map_nodeRes]
  rcases lookupA m p with _ | nd
  · rfl
  · rfl

theorem dedupFirstAux_subset (l : List String) :
    ∀ seen, ∀ x ∈ dedupFirstAux seen l, x ∈ l := by
  induction l with
  | nil =>
    intro seen x hx
    simp [dedupFirstAux] at hx
  | cons a l ih =>
    intro seen x hx
    unfold dedupFirstAux at hx
    by_cases ha : a ∈ seen
    · rw [if_pos ha] at hx
      exact List.mem_cons_of_mem a (ih seen x hx)
    · rw [if_neg ha] at hx
      rcases List.mem_cons.1 hx with rfl | hx'
      · exact List.mem_cons_self x l
      · exact List.mem_cons_of_mem a (ih (a :: seen) x hx')

theorem dedupFirst_subset {l : List String} {x : String}
    (h : x ∈ dedupFirst l) : x ∈ l :=
  dedupFirstAux_subset l [] x h

theorem mem_predsOf {E : List (String × String)} {id p : String}
    (h : p ∈ predsOf E id) : (p, id) ∈ E := by
  unfold predsOf at h
  obtain ⟨e, he, rfl⟩ := List.mem_map.1 h
  have ht : e.2 = id := by
    have := List.of_mem_filter he
    simpa using this
  have : e = (e.1, id) := by
    rw [← ht]
  rw [← this]
  exact List.mem_of_mem_filter he

theorem map_congr_mem {α β : Type} (l : List α) (f g : α → β)
    (h : ∀ a ∈ l, f a = g a) : l.map f = l.map g := by
  induction l with
  | nil => rfl
  | cons a l ih =>
    rw [List.map_cons, List.map_cons, h a (List.mem_cons_self a l),
      ih (fun a ha => h a (List.mem_cons_of_mem _ ha))]

theorem validateDag_true_eq (st : WState) (h : (validateDag st).1 = true) :
    validateDag st = (true, (validateDag st).2) := by
  rcases hvd : validateDag st with ⟨b, e⟩
  rw [hvd] at h
  simp only at h
  rw [h]

theorem nodes_ne_of_valid (st : WState) (h : (validateDag st).1 = true) :
    st.nodes ≠ [] := by
  intro hnil
  have he : validateDag st = (false, some ("Workflow has no nodes")) := by
    unfold validateDag
    rw [hnil]
    rfl
  rw [he] at h
  cases h

/-- Forward direction of the amended C3, as a reusable lemma: an accepted
closed graph is acyclic. -/
theorem acyclic_of_valid (st : WState) (hwf : StWf st) (hclosed : EdgeClosed st)
    (h : (validateDag st).1 = true) : Acyclic st.edges := by
  have hne := nodes_ne_of_valid st h
  obtain ⟨Pf, hiff, hfin⟩ := validateDag_run st hwf hne
  have hcard := hiff.1 h
  have hKN := keys_eq_nodes_of_closed st hwf hclosed
  have hlen : (keysA st.inDeg).length = st.nodes.length := by
    rw [← nodes_length_eq_keys]
    exact List.Perm.length_eq
      (List.perm_of_nodup_nodup_toFinset_eq hwf.degNodup hwf.nodesNodup
        (Finset.ext (fun k => by
          rw [List.mem_toFinset, List.mem_toFinset]
          exact hKN k)))
  intro v hv
  have hvK : v ∈ keysA st.inDeg := cycle_node_mem_keys st hwf hv
  have hvPf : v ∉ Pf := hfin.untainted v (tainted_of_cycle hv)
  have hssub : Pf ⊂ (keysA st.inDeg).toFinset := by
    refine ⟨fun p hp => List.mem_toFinset.2 (hfin.subK p hp), ?_⟩
    intro hsup
    exact hvPf (hsup (List.mem_toFinset.2 hvK))
  have hlt := Finset.card_lt_card hssub
  rw [List.toFinset_card_of_nodup hwf.degNodup, hlen] at hlt
  omega

theorem layerSpecs_ok (m : List (String × WNode)) (E : List (String × String))
    (outs : List (String × String)) :
    ∀ layer : List String, (∀ nid ∈ layer, nid ∈ keysA m) →
      layerSpecs m E outs layer = .ok (layer.map (fun nid =>
        (nid, (dedupFirst (predsOf E nid)).map (fun p => (p, (lookupA outs p).getD ""))))) := by
  intro layer
  induction layer with
  | nil => intro _; rfl
  | cons nid rest ih =>
    intro hmem
    obtain ⟨n₀, hn₀⟩ := lookupA_isSome_of_mem (hmem nid (List.mem_cons_self nid rest))
    have hrest := ih (fun x hx => hmem x (List.mem_cons_of_mem nid hx))
    simp only [layerSpecs, hn₀, hrest, List.map_cons]

theorem layerAwait_run (gen : GenOracle) (u : String) :
    ∀ (specs : List (String × List (String × String)))
      (m : List (String × WNode)) (outs : List (String × String)),
      (keysA specs).Nodup → (∀ s ∈ specs, s.1 ∈ keysA m) →
      ∃ m1 outs1, layerAwait gen u m outs specs = (m1, outs1, none)
        ∧ keysA m1 = keysA m
        ∧ (∀ id, id ∉ keysA specs →
            lookupA m1 id = lookupA m id ∧ lookupA outs1 id = lookupA outs id)
        ∧ (∀ nid po, (nid, po) ∈ specs → ∀ n₀, lookupA m nid = some n₀ →
            lookupA m1 nid = some (executeNode gen n₀ u po)
            ∧ lookupA outs1 nid =
                (match (executeNode gen n₀ u po).output with
                 | some o => if o = "" then lookupA outs nid else some o
                 | none => lookupA outs nid)) := by
  intro specs
  induction specs with
  | nil =>
    intro m outs _ _
    refine ⟨m, outs, rfl, rfl, fun id _ => ⟨rfl, rfl⟩, ?_⟩
    intro nid po h
    simp at h
  | cons s rest ih =>
    obtain ⟨nid, po⟩ := s
    intro m outs hnd hkm
    obtain ⟨n₀, hn₀⟩ := lookupA_isSome_of_mem (hkm (nid, po) (List.mem_cons_self _ rest))
    set nd := executeNode gen n₀ u po with hnd_def
    set m' := setA m nid nd with hm'
    set outs' := (match nd.output with
      | some o => if o = "" then outs else setA outs nid o
      | none => outs) with houts'
    have hstep : layerAwait gen u m outs ((nid, po) :: rest)
        = layerAwait gen u m' outs' rest := by
      simp only [layerAwait, hn₀]
    have hndr : (keysA rest).Nodup := (List.nodup_cons.1 hnd).2
    have hnidr : nid ∉ keysA rest := (List.nodup_cons.1 hnd).1
    have hkeysm' : keysA m' = keysA m :=
      keysA_setA_of_mem m nd (mem_keysA_of_mem (lookupA_mem hn₀))
    have hkm' : ∀ s ∈ rest, s.1 ∈ keysA m' := by
      intro s hs
      rw [hkeysm']
      exact hkm s (List.mem_cons_of_mem _ hs)
    obtain ⟨m1, outs1, hrun, hkeys1, huntouched, hchar⟩ := ih m' outs' hndr hkm'
    have hlookm' : ∀ k, k ≠ nid → lookupA m' k = lookupA m k := by
      intro k hk
      exact lookupA_setA_ne m nd (fun h => hk h.symm)
    have hlookouts' : ∀ k, k ≠ nid → lookupA outs' k = lookupA outs k := by
      intro k hk
      rw [houts']
      rcases nd.output with _ | o
      · rfl
      · by_cases ho : o = ""
        · simp [ho]
        · simp [ho]
          exact lookupA_setA_ne outs o (fun h => hk h.symm)
    refine ⟨m1, outs1, by rw [hstep]; exact hrun, hkeys1.trans hkeysm', ?_, ?_⟩
    · intro id hid
      have hidnid : id ≠ nid := by
        intro he
        exact hid (he ▸ List.mem_cons_self nid (keysA rest))
      have hidr : id ∉ keysA rest := by
        intro hmem
        exact hid (List.mem_cons_of_mem _ hmem)
      obtain ⟨h1, h2⟩ := huntouched id hidr
      exact ⟨h1.trans (hlookm' id hidnid), h2.trans (hlookouts' id hidnid)⟩
    · intro nid' po' hmem n₀' hn₀'
      rcases List.mem_cons.1 hmem with heq | hmem'
      · cases heq
        rw [hn₀] at hn₀'
        cases hn₀'
        obtain ⟨h1, h2⟩ := huntouched nid hnidr
        constructor
        · rw [h1, hm', lookupA_setA_self]
        · rw [h2, houts']
          rcases ho : nd.output with _ | o
          · simp
          · by_cases hoe : o = ""
            · simp [hoe]
            · simp [hoe, lookupA_setA_self]
      · have hnid'r : nid' ∈ keysA rest := mem_keysA_of_mem hmem'
        have hne : nid' ≠ nid := by
          intro he
          exact hnidr (he ▸ hnid'r)
        have hn₀m' : lookupA m' nid' = some n₀' := by
          rw [hlookm' nid' hne, hn₀']
        obtain ⟨h1, h2⟩ := hchar nid' po' hmem' n₀' hn₀m'
        refine ⟨h1, ?_⟩
        rw [h2]
        rcases (executeNode gen n₀' u po').output with _ | o
        · exact hlookouts' nid' hne
        · by_cases hoe : o = ""
          · simp [hoe]
            exact hlookouts' nid' hne
          · simp [hoe]

theorem keysA_map_pair {β : Type} (l : List String) (f : String → β) :
    keysA (l.map (fun x => (x, f x))) = l := by
  induction l with
  | nil => rfl
  | cons a l ih =>
    rw [List.map_cons, keysA_cons, ih]

/-- The full layer-by-layer run on a well-layered graph: it never raises,
keys are preserved, nodes outside the layers are untouched, and every
layered node ends up as `execute_node` applied to its original value and
the final recorded outputs of its (deduplicated) predecessors. -/
theorem execLayers_run (gen : GenOracle) (u : String) (E : List (String × String)) :
    ∀ (layers : List (List String)) (P : Finset String)
      (m : List (String × WNode)) (outs : List (String × String)),
      LayerChain E P layers →
      (∀ x ∈ layers.join, x ∈ keysA m) →
      (∀ p, (lookupA outs p).getD "" = outVal (lookupA m p)) →
      (∀ x ∈ layers.join, ∀ n, lookupA m x = some n → n.output = none) →
      ∃ m2, execLayers gen u E layers m outs = (m2, none)
        ∧ keysA m2 = keysA m
        ∧ (∀ id, id ∉ layers.join → lookupA m2 id = lookupA m id)
        ∧ (∀ id ∈ layers.join, ∀ n₀, lookupA m id = some n₀ →
            lookupA m2 id = some (executeNode gen n₀ u
              ((dedupFirst (predsOf E id)).map
                (fun p => (p, outVal (lookupA m2 p)))))) := by
  intro layers
  induction layers with
  | nil =>
    intro P m outs _ _ _ _
    refine ⟨m, rfl, rfl, fun id _ => rfl, ?_⟩
    intro id hid
    simp at hid
  | cons layer rest ih =>
    intro P m outs hchain hjoinK houts hfresh
    cases hchain with
    | cons _ _ _ hne hnd hdisj hpred hrest =>
    have hmemJ : ∀ x, x ∈ (layer :: rest).join ↔ x ∈ layer ∨ x ∈ rest.join := by
      intro x
      rw [List.join]
      exact List.mem_append
    have hlayK : ∀ nid ∈ layer, nid ∈ keysA m :=
      fun nid h => hjoinK nid ((hmemJ nid).2 (Or.inl h))
    have hspecs := layerSpecs_ok m E outs layer hlayK
    have hkeysSpecs : keysA (layer.map (fun nid =>
        (nid, (dedupFirst (predsOf E nid)).map
          (fun p => (p, (lookupA outs p).getD ""))))) = layer :=
      keysA_map_pair layer _
    have hndSpecs : (keysA (layer.map (fun nid =>
        (nid, (dedupFirst (predsOf E nid)).map
          (fun p => (p, (lookupA outs p).getD "")))))).Nodup := by
      rw [hkeysSpecs]
      exact hnd
    have hkSpecs : ∀ s ∈ layer.map (fun nid =>
        (nid, (dedupFirst (predsOf E nid)).map
          (fun p => (p, (lookupA outs p).getD "")))), s.1 ∈ keysA m := by
      intro s hs
      obtain ⟨nid, hmem, rfl⟩ := List.mem_map.1 hs
      exact hlayK nid hmem
    obtain ⟨m1, outs1, hrun1, hkeys1, huntouched1, hchar1⟩ :=
      layerAwait_run gen u _ m outs hndSpecs hkSpecs
    have hunt1 : ∀ id, id ∉ layer →
        lookupA m1 id = lookupA m id ∧ lookupA outs1 id = lookupA outs id := by
      intro id hid
      refine huntouched1 id ?_
      rw [hkeysSpecs]
      exact hid
    have hchar1' : ∀ id ∈ layer, ∀ n₀, lookupA m id = some n₀ →
        lookupA m1 id = some (executeNode gen n₀ u
          ((dedupFirst (predsOf E id)).map (fun p => (p, (lookupA outs p).getD ""))))
        ∧ lookupA outs1 id =
            (match (executeNode gen n₀ u
              ((dedupFirst (predsOf E id)).map
                (fun p => (p, (lookupA outs p).getD "")))).output with
             | some o => if o = "" then lookupA outs id else some o
             | none => lookupA outs id) := by
      intro id hid n₀ h
      exact hchar1 id _ (List.mem_map.2 ⟨id, hid, rfl⟩) n₀ h
    have hstep : execLayers gen u E (layer :: rest) m outs
        = execLayers gen u E rest m1 outs1 := by
      simp only [execLayers, hspecs, hrun1]
    have hnotrest : ∀ x ∈ rest.join, x ∉ layer := by
      intro x hx hxl
      exact layerChain_join_not_mem E rest (P ∪ layer.toFinset) hrest x hx
        (Finset.mem_union_right _ (List.mem_toFinset.2 hxl))
    have hPnotrest : ∀ p ∈ P, p ∉ rest.join := by
      intro p hp hpr
      exact layerChain_join_not_mem E rest (P ∪ layer.toFinset) hrest p hpr
        (Finset.mem_union_left _ hp)
    have hLnotrest : ∀ x ∈ layer, x ∉ rest.join := by
      intro x hx hxr
      exact hnotrest x hxr hx
    have hjoinK' : ∀ x ∈ rest.join, x ∈ keysA m1 := by
      intro x hx
      rw [hkeys1]
      exact hjoinK x ((hmemJ x).2 (Or.inr hx))
    have hfresh' : ∀ x ∈ rest.join, ∀ n, lookupA m1 x = some n → n.output = none := by
      intro x hx n h
      rw [(hunt1 x (hnotrest x hx)).1] at h
      exact hfresh x ((hmemJ x).2 (Or.inr hx)) n h
    have houts' : ∀ p, (lookupA outs1 p).getD "" = outVal (lookupA m1 p) := by
      intro p
      by_cases hp : p ∈ layer
      · obtain ⟨n₀, hn₀⟩ := lookupA_isSome_of_mem (hlayK p hp)
        have hf0 : n₀.output = none :=
          hfresh p ((hmemJ p).2 (Or.inl hp)) n₀ hn₀
        have hold : (lookupA outs p).getD "" = "" := by
          rw [houts p, hn₀]
          simp [outVal, hf0]
        obtain ⟨hm1p, houts1p⟩ := hchar1' p hp n₀ hn₀
        rw [hm1p]
        rcases hg : gen n₀.modelId (buildPrompt n₀.promptTemplate u
            ((dedupFirst (predsOf E p)).map
              (fun q => (q, (lookupA outs q).getD "")))) with e | out
        · simp only [executeNode, hg] at houts1p ⊢
          rw [hf0] at houts1p ⊢
          simp only at houts1p
          rw [houts1p, hold]
          simp [outVal]
        · simp only [executeNode, hg] at houts1p ⊢
          by_cases ht : out.trim = ""
          · simp only [ht, if_pos, ite_true, eq_self_iff_true] at houts1p
            rw [houts1p, hold]
            simp [outVal, ht]
          · simp only [if_neg ht] at houts1p
            rw [houts1p]
            simp [outVal]
      · obtain ⟨h1, h2⟩ := hunt1 p hp
        rw [h1, h2]
        exact houts p
    obtain ⟨m2, hrun2, hkeys2, hunt2, hchar2⟩ :=
      ih (P ∪ layer.toFinset) m1 outs1 hrest hjoinK' houts' hfresh'
    refine ⟨m2, ?_, hkeys2.trans hkeys1, ?_, ?_⟩
    · rw [hstep]
      exact hrun2
    · intro id hid
      have hidl : id ∉ layer := fun h => hid ((hmemJ id).2 (Or.inl h))
      have hidr : id ∉ rest.join := fun h => hid ((hmemJ id).2 (Or.inr h))
      rw [hunt2 id hidr, (hunt1 id hidl).1]
    · intro id hid n₀ h
      rcases (hmemJ id).1 hid with hidl | hidr
      · have hidr : id ∉ rest.join := hLnotrest id hidl
        have hm1id := (hchar1' id hidl n₀ h).1
        have hm2id : lookupA m2 id = some (executeNode gen n₀ u
            ((dedupFirst (predsOf E id)).map
              (fun p => (p, (lookupA outs p).getD "")))) := by
          rw [hunt2 id hidr, hm1id]
        have hXY : (dedupFirst (predsOf E id)).map
              (fun p => (p, (lookupA outs p).getD ""))
            = (dedupFirst (predsOf E id)).map
              (fun p => (p, outVal (lookupA m2 p))) := by
          refine map_congr_mem _ _ _ ?_
          intro p hp
          have hpE : (p, id) ∈ E := mem_predsOf (dedupFirst_subset hp)
          have hpP : p ∈ P := hpred (p, id) hpE hidl
          have hpl : p ∉ layer := fun hl => hdisj p hl hpP
          have hpr : p ∉ rest.join := hPnotrest p hpP
          have hov : outVal (lookupA m2 p) = (lookupA outs p).getD "" := by
            rw [hunt2 p hpr, (hunt1 p hpl).1]
            exact (houts p).symm
          show (p, (lookupA outs p).getD "") = (p, outVal (lookupA m2 p))
          rw [hov]
        rw [hm2id, hXY]
      · have hm1id : lookupA m1 id = some n₀ := by
          rw [(hunt1 id (hnotrest id hidr)).1]
          exact h
        exact hchar2 id hidr n₀ hm1id

/-- Claim C1 as amended (corrected).  For every graph built by
`add_node`/`add_edge` that `validate_dag` accepts AND whose edges all
reference present nodes, `execute` returns a `success := true` result with
an entry for every node: a node whose generate call fails gets the error
recorded with `output` unset (so dependents see the empty string for its
token), every other node is still executed, and a node whose generate call
succeeds records the stripped output with no error; each node's prompt is
built from its deduplicated predecessors' recorded outputs.  Without the
edge-closedness restriction the original claim is false — see the
counterexample. -/
theorem claim_C1 (ops : List WOp) (gen : GenOracle) (u : String)
    (hvalid : (validateDag (builtFrom ops)).1 = true)
    (hclosed : EdgeClosed (builtFrom ops)) :
    ∃ r : WResult, (execute (builtFrom ops) gen u).2 = .ok r
      ∧ r.success = true ∧ r.error = none
      ∧ keysA r.nodes = keysA (builtFrom ops).nodes
      ∧ ∀ id n₀, lookupA (builtFrom ops).nodes id = some n₀ →
          ∃ entry : NodeRes, lookupA r.nodes id = some entry
            ∧ (entry.output = none → recordedOutput r.nodes id = "")
            ∧ (∀ e, gen n₀.modelId (buildPrompt n₀.promptTemplate u
                  ((dedupFirst (predsOf (builtFrom ops).edges id)).map
                    (fun p => (p, recordedOutput r.nodes p)))) = .error e →
                entry.output = none ∧ entry.error = some e)
            ∧ (∀ out, gen n₀.modelId (buildPrompt n₀.promptTemplate u
                  ((dedupFirst (predsOf (builtFrom ops).edges id)).map
                    (fun p => (p, recordedOutput r.nodes p)))) = .ok out →
                entry.output = some out.trim ∧ entry.error = none) := by
  set st := builtFrom ops with hst
  have hwf : StWf st := stWf_builtFrom ops
  have hacyc : Acyclic st.edges := acyclic_of_valid st hwf hclosed hvalid
  obtain ⟨hchain, hndJ, hsubK, htotal⟩ := getExecutionOrder_spec st hwf
  have hKN := keys_eq_nodes_of_closed st hwf hclosed
  have hjoinK : ∀ x ∈ (getExecutionOrder st).join, x ∈ keysA st.nodes :=
    fun x hx => (hKN x).1 (hsubK x hx)
  have houts0 : ∀ p, (lookupA ([] : List (String × String)) p).getD ""
      = outVal (lookupA st.nodes p) := by
    intro p
    rcases hq : lookupA st.nodes p with _ | n
    · rfl
    · have hf := (hwf.nodesFresh p n hq).2.1
      simp [lookupA, outVal, hf]
  have hfresh : ∀ x ∈ (getExecutionOrder st).join, ∀ n,
      lookupA st.nodes x = some n → n.output = none :=
    fun x _ n h => (hwf.nodesFresh x n h).2.1
  obtain ⟨m2, hrun, hkeys2, hunt2, hchar2⟩ :=
    execLayers_run gen u st.edges (getExecutionOrder st) ∅ st.nodes []
      hchain hjoinK houts0 hfresh
  obtain ⟨v2, hvd⟩ : ∃ v2, validateDag st = (true, v2) :=
    ⟨_, validateDag_true_eq st hvalid⟩
  have hexec : execute st gen u = ({ st with nodes := m2 },
      .ok { success := true, error := none,
            totalExecutionTime := (m2.map (fun p => p.2.executionTime)).sum,
            layers := (getExecutionOrder st).length,
            nodes := m2.map (fun p => (p.1, nodeRes p.2)) }) := by
    simp only [execute, hvd, hrun]
  refine ⟨{ success := true, error := none,
            totalExecutionTime := (m2.map (fun p => p.2.executionTime)).sum,
            layers := (getExecutionOrder st).length,
            nodes := m2.map (fun p => (p.1, nodeRes p.2)) }, ?_, rfl, rfl, ?_, ?_⟩
  · rw [hexec]
  · show keysA (m2.map (fun q => (q.1, nodeRes q.2))) = keysA st.nodes
    rw [keysA_map_nodeRes]
    exact hkeys2
  · intro id n₀ h
    have hidK : id ∈ keysA st.nodes := mem_keysA_of_mem (lookupA_mem h)
    have hidJ : id ∈ (getExecutionOrder st).join := htotal hacyc id ((hKN id).2 hidK)
    obtain ⟨nd, hnd_eq, hm2id⟩ : ∃ nd, nd = executeNode gen n₀ u
        ((dedupFirst (predsOf st.edges id)).map (fun p => (p, outVal (lookupA m2 p))))
        ∧ lookupA m2 id = some nd :=
      ⟨_, rfl, hchar2 id hidJ n₀ h⟩
    refine ⟨nodeRes nd, ?_, ?_, ?_, ?_⟩
    · show lookupA (m2.map (fun q => (q.1, nodeRes q.2))) id = some (nodeRes nd)
      rw [lookupA_map_nodeRes, hm2id]
      rfl
    · intro hout
      show recordedOutput (m2.map (fun q => (q.1, nodeRes q.2))) id = ""
      rw [recordedOutput_eq, hm2id]
      have hXout : nd.output = none := hout
      simp [outVal, hXout]
    · show ∀ e, gen n₀.modelId (buildPrompt n₀.promptTemplate u
          ((dedupFirst (predsOf st.edges id)).map
            (fun p => (p, recordedOutput (m2.map (fun q => (q.1, nodeRes q.2))) p))))
            = .error e →
          (nodeRes nd).output = none ∧ (nodeRes nd).error = some e
      simp only [recordedOutput_eq]
      intro e hge
      subst hnd_eq
      refine ⟨?_, ?_⟩
      · simp [executeNode, hge, nodeRes, (hwf.nodesFresh id n₀ h).2.1]
      · simp [executeNode, hge, nodeRes]
    · show ∀ out, gen n₀.modelId (buildPrompt n₀.promptTemplate u
          ((dedupFirst (predsOf st.edges id)).map
            (fun p => (p, recordedOutput (m2.map (fun q => (q.1, nodeRes q.2))) p))))
            = .ok out →
          (nodeRes nd).output = some out.trim ∧ (nodeRes nd).error = none
      simp only [recordedOutput_eq]
      intro out hge
      subst hnd_eq
      refine ⟨?_, ?_⟩
      · simp [executeNode, hge, nodeRes]
      · simp [executeNode, hge, nodeRes, (hwf.nodesFresh id n₀ h).2.2.1]

/-- Counterexample to C1 as stated ("for every validated graph ...").  This
graph is accepted by `validate_dag` (its two dangling edges mask the
`A ↔ B` cycle), and node `C`'s generate call fails and is duly recorded;
but instead of executing every other node and returning `success := true`,
`execute` escapes with an uncaught `KeyError` on the phantom layer member
`D`, and node `A` is never executed. -/
theorem claim_C1_counterexample :
    (validateDag (builtFrom
        [WOp.node { nodeId := "A", modelId := "m", modelName := "M", promptTemplate := "t" },
         WOp.node { nodeId := "B", modelId := "m", modelName := "M", promptTemplate := "t" },
         WOp.node { nodeId := "C", modelId := "m", modelName := "M", promptTemplate := "t" },
         WOp.edge ("A") ("B"), WOp.edge ("B") ("A"),
         WOp.edge ("C") ("D"), WOp.edge ("C") ("F")])).1 = true
    ∧ (execute (builtFrom
        [WOp.node { nodeId := "A", modelId := "m", modelName := "M", promptTemplate := "t" },
         WOp.node { nodeId := "B", modelId := "m", modelName := "M", promptTemplate := "t" },
         WOp.node { nodeId := "C", modelId := "m", modelName := "M", promptTemplate := "t" },
         WOp.edge ("A") ("B"), WOp.edge ("B") ("A"),
         WOp.edge ("C") ("D"), WOp.edge ("C") ("F")])
        (fun _ _ => Except.error ("boom")) ("u")).2 = Except.error ("KeyError: D")
    ∧ (lookupA (execute (builtFrom
        [WOp.node { nodeId := "A", modelId := "m", modelName := "M", promptTemplate := "t" },
         WOp.node { nodeId := "B", modelId := "m", modelName := "M", promptTemplate := "t" },
         WOp.node { nodeId := "C", modelId := "m", modelName := "M", promptTemplate := "t" },
         WOp.edge ("A") ("B"), WOp.edge ("B") ("A"),
         WOp.edge ("C") ("D"), WOp.edge ("C") ("F")])
        (fun _ _ => Except.error ("boom")) ("u")).1.nodes ("C")).map
          (fun n => (n.output, n.error)) = some (none, some ("boom"))
    ∧ (lookupA (execute (builtFrom
        [WOp.node { nodeId := "A", modelId := "m", modelName := "M", promptTemplate := "t" },
         WOp.node { nodeId := "B", modelId := "m", modelName := "M", promptTemplate := "t" },
         WOp.node { nodeId := "C", modelId := "m", modelName := "M", promptTemplate := "t" },
         WOp.edge ("A") ("B"), WOp.edge ("B") ("A"),
         WOp.edge ("C") ("D"), WOp.edge ("C") ("F")])
        (fun _ _ => Except.error ("boom")) ("u")).1.nodes ("A")).map
          (fun n => (n.output, n.error)) = some (none, none) :=
  ⟨by decide, rfl, rfl, rfl⟩

/-- Witness for the amended C1 on the Scenario-D graph (`n1 → n2`), with a
generate capability that fails on `n1`'s model and succeeds on `n2`'s. -/
theorem claim_C1_witness :
    (validateDag (builtFrom
        [WOp.node { nodeId := "n1", modelId := "m1", modelName := "M1",
                    promptTemplate := "\x7binput\x7d" },
         WOp.node { nodeId := "n2", modelId := "m2", modelName := "M2",
                    promptTemplate := "Given \x7bn1\x7d, recommend" },
         WOp.edge ("n1") ("n2")])).1 = true
    ∧ EdgeClosed (builtFrom
        [WOp.node { nodeId := "n1", modelId := "m1", modelName := "M1",
                    promptTemplate := "\x7binput\x7d" },
         WOp.node { nodeId := "n2", modelId := "m2", modelName := "M2",
                    promptTemplate := "Given \x7bn1\x7d, recommend" },
         WOp.edge ("n1") ("n2")])
    ∧ ∃ r : WResult, (execute (builtFrom
        [WOp.node { nodeId := "n1", modelId := "m1", modelName := "M1",
                    promptTemplate := "\x7binput\x7d" },
         WOp.node { nodeId := "n2", modelId := "m2", modelName := "M2",
                    promptTemplate := "Given \x7bn1\x7d, recommend" },
         WOp.edge ("n1") ("n2")])
        (fun mid _ => if mid = ("m1") then Except.error ("fail1") else Except.ok (" rec "))
        ("hiking")).2 = .ok r
      ∧ r.success = true ∧ r.error = none
      ∧ keysA r.nodes = keysA (builtFrom
        [WOp.node { nodeId := "n1", modelId := "m1", modelName := "M1",
                    promptTemplate := "\x7binput\x7d" },
         WOp.node { nodeId := "n2", modelId := "m2", modelName := "M2",
                    promptTemplate := "Given \x7bn1\x7d, recommend" },
         WOp.edge ("n1") ("n2")]).nodes
      ∧ ∀ id n₀, lookupA (builtFrom
        [WOp.node { nodeId := "n1", modelId := "m1", modelName := "M1",
                    promptTemplate := "\x7binput\x7d" },
         WOp.node { nodeId := "n2", modelId := "m2", modelName := "M2",
                    promptTemplate := "Given \x7bn1\x7d, recommend" },
         WOp.edge ("n1") ("n2")]).nodes id = some n₀ →
          ∃ entry : NodeRes, lookupA r.nodes id = some entry
            ∧ (entry.output = none → recordedOutput r.nodes id = "")
            ∧ (∀ e, (fun mid _ => if mid = ("m1") then Except.error ("fail1")
                  else Except.ok (" rec ")) n₀.modelId (buildPrompt n₀.promptTemplate ("hiking")
                  ((dedupFirst (predsOf (builtFrom
        [WOp.node { nodeId := "n1", modelId := "m1", modelName := "M1",
                    promptTemplate := "\x7binput\x7d" },
         WOp.node { nodeId := "n2", modelId := "m2", modelName := "M2",
                    promptTemplate := "Given \x7bn1\x7d, recommend" },
         WOp.edge ("n1") ("n2")]).edges id)).map
                    (fun p => (p, recordedOutput r.nodes p)))) = .error e →
                entry.output = none ∧ entry.error = some e)
            ∧ (∀ out, (fun mid _ => if mid = ("m1") then Except.error ("fail1")
                  else Except.ok (" rec ")) n₀.modelId (buildPrompt n₀.promptTemplate ("hiking")
                  ((dedupFirst (predsOf (builtFrom
        [WOp.node { nodeId := "n1", modelId := "m1", modelName := "M1",
                    promptTemplate := "\x7binput\x7d" },
         WOp.node { nodeId := "n2", modelId := "m2", modelName := "M2",
                    promptTemplate := "Given \x7bn1\x7d, recommend" },
         WOp.edge ("n1") ("n2")]).edges id)).map
                    (fun p => (p, recordedOutput r.nodes p)))) = .ok out →
                entry.output = some out.trim ∧ entry.error = none) :=
  ⟨by decide, by unfold EdgeClosed; decide,
   claim_C1
     [WOp.node { nodeId := "n1", modelId := "m1", modelName := "M1",
                 promptTemplate := "\x7binput\x7d" },
      WOp.node { nodeId := "n2", modelId := "m2", modelName := "M2",
                 promptTemplate := "Given \x7bn1\x7d, recommend" },
      WOp.edge ("n1") ("n2")]
     (fun mid _ => if mid = ("m1") then Except.error ("fail1") else Except.ok (" rec "))
     ("hiking") (by decide) (by unfold EdgeClosed; decide)⟩

end Workflow

end LlmDash
